import Mathlib

/-!
Verification development for the ASP-Graph normalization module
(`src/normalization.py`): a normalizer turning Here-and-There (HT)
propositional formulas into sets of logic-program rules.

The Python `Node` class (a mutable binary tree whose `val` is an opcode or
atom string and whose children `l`, `r` may be absent) is embedded as the
inductive type `Node` below.  All functions are translated directly from the
source.  Python code that would raise `AttributeError` (accessing `.val` on
`None`) or loop forever (only reachable on inputs outside the propositional
well-formed fragment) is given a harmless total value at exactly those spots,
each marked by a comment; every theorem that depends on such a spot carries a
well-formedness hypothesis (`istProp`) keeping it in the faithful region.

Recursions that are not structural in the source (`nnf`, the worklist loop of
`normalize`) are embedded with an explicit fuel argument, so that every
definition evaluates inside the kernel; `nnf` is the fuel instantiation at a
weighted size that is proved sufficient (`nnfF_congr`).
-/

-- Opcode strings, from class `OP` of the source.
namespace OP

def NOT : String := "-"

def IMPLIES : String := ">"

def AND : String := "&"

def OR : String := "|"

def EXISTS : String := "/E"

def FORALL : String := "/F"

end OP

-- Truth-constant strings, from class `LIT` of the source.
namespace LIT

def TRUE : String := "/t"

def FALSE : String := "/f"

end LIT

/-- The `Node` class: a value string and two optional children. -/
inductive Node where
  | mk (val : String) (l : Option Node) (r : Option Node)
deriving Repr, Inhabited

def Node.val : Node → String
  | .mk v _ _ => v

def Node.l : Node → Option Node
  | .mk _ l _ => l

def Node.r : Node → Option Node
  | .mk _ _ r => r

@[simp] theorem Node.val_mk (v : String) (l r : Option Node) : (Node.mk v l r).val = v := rfl

@[simp] theorem Node.l_mk (v : String) (l r : Option Node) : (Node.mk v l r).l = l := rfl

@[simp] theorem Node.r_mk (v : String) (l r : Option Node) : (Node.mk v l r).r = r := rfl

/-- Structural equality, as implemented by `Node.__eq__` in the source:
equal value strings and recursively equal children. -/
def Node.beq : Node → Node → Bool
  | .mk v1 l1 r1, .mk v2 l2 r2 =>
    v1 == v2
      && (match l1, l2 with
          | none, none => true
          | some a, some b => Node.beq a b
          | _, _ => false)
      && (match r1, r2 with
          | none, none => true
          | some a, some b => Node.beq a b
          | _, _ => false)

theorem Node.beq_iff : ∀ (a b : Node), (Node.beq a b = true) ↔ a = b
  | .mk v1 l1 r1, .mk v2 l2 r2 => by
    unfold Node.beq
    simp only [Bool.and_eq_true, beq_iff_eq]
    constructor
    · rintro ⟨⟨hv, hl⟩, hr⟩
      subst hv
      congr 1
      · match l1, l2, hl with
        | none, none, _ => rfl
        | some a, some b, h => exact congrArg some ((Node.beq_iff a b).mp h)
      · match r1, r2, hr with
        | none, none, _ => rfl
        | some a, some b, h => exact congrArg some ((Node.beq_iff a b).mp h)
    · rintro h
      injection h with hv hl hr
      subst hv hl hr
      refine ⟨⟨rfl, ?_⟩, ?_⟩
      · match l1 with
        | none => rfl
        | some a => exact (Node.beq_iff a a).mpr rfl
      · match r1 with
        | none => rfl
        | some a => exact (Node.beq_iff a a).mpr rfl

instance : DecidableEq Node := fun a b =>
  match h : Node.beq a b with
  | true => isTrue ((Node.beq_iff a b).mp h)
  | false => isFalse (fun he => by
      have hb := (Node.beq_iff a b).mpr he
      rw [h] at hb
      exact Bool.false_ne_true hb)

/-- `Node.is_quantifier` from the source. -/
def Node.is_quantifier (n : Node) : Bool :=
  if (n.val = OP.EXISTS) ∨ (n.val = OP.FORALL) then true else false

/-- `Node.is_literal` from the source: a node counts as a literal whenever its
value string is none of the six operator strings (so atoms and the constants
`/t`, `/f` are literals). -/
def Node.is_literal (n : Node) : Bool :=
  if (n.val = OP.NOT) ∨ (n.val = OP.IMPLIES) ∨ (n.val = OP.AND) ∨ (n.val = OP.OR)
      ∨ (n.val = OP.EXISTS) ∨ (n.val = OP.FORALL) then false else true

/-- `Node.get_string` from the source: infix serialization (left string,
value, right string). -/
def Node.get_string : Node → String
  | .mk v l r =>
    (match l with | none => "" | some a => a.get_string)
      ++ v
      ++ (match r with | none => "" | some b => b.get_string)

/-! ### The reverse-Polish parser (`Formula.build_tree`) -/

/-- The two ways `Formula.build_tree` can fail: the explicit
`MalformedFormulaError` raised for a non-literal quantifier variable, and the
`IndexError` a `pop` on an empty stack would raise. -/
inductive BuildErr where
  | malformed
  | stackUnderflow
deriving DecidableEq, Repr

def Formula.separator : String := " "

/-- One iteration of the token loop of `Formula.build_tree`.  The Python stack
appends and pops at the END of its list; here the top of the stack is the HEAD
of the list, so `stack.pop()` is matching off the head and `stack.append(n)`
is consing.  For `-` one operand is popped into the right child; for the
binary connectives and the quantifiers the first popped operand becomes the
right child (`n.r = op1`) and the second popped the left child (`n.l = op2`);
quantifiers additionally require the left child (bound variable) to be a
literal, else `MalformedFormulaError` is raised. -/
def applyToken (stack : List Node) (s : String) : Except BuildErr (List Node) :=
  if s = OP.NOT then
    match stack with
    | op1 :: rest => .ok (Node.mk s none (some op1) :: rest)
    | [] => .error .stackUnderflow
  else if (s = OP.IMPLIES) ∨ (s = OP.AND) ∨ (s = OP.OR) then
    match stack with
    | op1 :: op2 :: rest => .ok (Node.mk s (some op2) (some op1) :: rest)
    | _ => .error .stackUnderflow
  else if (s = OP.EXISTS) ∨ (s = OP.FORALL) then
    match stack with
    | op1 :: op2 :: rest =>
      -- n.l is op2 (the second popped operand); quantifiers always have
      -- their bound variable in self.l
      if op2.is_literal then
        .ok (Node.mk s (some op2) (some op1) :: rest)
      else
        .error .malformed
    | _ => .error .stackUnderflow
  else
    .ok (Node.mk s none none :: stack)

/-- Split a character list at every space, keeping empty pieces, exactly as
Python `str.split(' ')` does (`String.splitOn` is not kernel-reducible, hence
this structural reimplementation). -/
def splitSep : List Char → List (List Char)
  | [] => [[]]
  | c :: rest =>
    if c = ' ' then [] :: splitSep rest
    else
      match splitSep rest with
      | g :: gs => (c :: g) :: gs
      | [] => [[c]]

/-- `string.split(self.separator)` of the source. -/
def tokensOf (s : String) : List String :=
  (splitSep s.data).map (fun cs => String.mk cs)

/-- `Formula.build_tree` from the source: fold the token loop over the input
and return the final `stack.pop()` (the head; an empty final stack is the
`IndexError` case). -/
def build_tree (string : String) : Except BuildErr Node := do
  let stack ← (tokensOf string).foldlM applyToken []
  match stack with
  | n :: _ => .ok n
  | [] => .error .stackUnderflow

/-! ### Weighted size, the fuel bound for `nnf` -/

/-- Node count where an implication node counts twice; this dominates the
recursion depth of `nnf` (plain node count does not, because the
`Not(Implies(a,b))` rewrite recurses into the same-sized `Not(Not(a))`). -/
def wsize : Node → Nat
  | .mk v l r =>
    (if v = OP.IMPLIES then 2 else 1)
      + (match l with | none => 0 | some a => wsize a)
      + (match r with | none => 0 | some b => wsize b)

/-- Weighted size of an optional child. -/
def osize : Option Node → Nat
  | none => 0
  | some a => wsize a

theorem wsize_mk (v : String) (l r : Option Node) :
    wsize (Node.mk v l r) = (if v = OP.IMPLIES then 2 else 1) + osize l + osize r := by
  cases l <;> cases r <;> simp [wsize, osize]

@[simp] theorem osize_none : osize none = 0 := rfl

@[simp] theorem osize_some (a : Node) : osize (some a) = wsize a := rfl

theorem wsize_pos (n : Node) : 1 ≤ wsize n := by
  cases n with
  | mk v l r =>
    rw [wsize_mk]
    split <;> omega

theorem wsize_ge (n : Node) : 1 + osize n.l + osize n.r ≤ wsize n := by
  cases n with
  | mk v l r =>
    rw [wsize_mk]
    simp only [Node.l_mk, Node.r_mk]
    split <;> omega

theorem wsize_imp (n : Node) (h : n.val = OP.IMPLIES) :
    wsize n = 2 + osize n.l + osize n.r := by
  cases n with
  | mk v l r =>
    rw [wsize_mk]
    simp only [Node.val_mk] at h
    simp [h]

theorem osize_le (o : Option Node) (a : Node) (h : o = some a) : wsize a ≤ osize o := by
  subst h; simp

theorem wsize_not (o : Option Node) : wsize (Node.mk OP.NOT none o) = 1 + osize o := by
  rw [wsize_mk]
  have hne : ¬(OP.NOT = OP.IMPLIES) := by decide
  simp [hne]

theorem wsize_not2 (o : Option Node) :
    wsize (Node.mk OP.NOT none (some (Node.mk OP.NOT none o))) = 2 + osize o := by
  rw [wsize_not, osize_some, wsize_not]
  omega

/-! ### `nnf` (Negation Normal Form) -/

/-- Fueled translation of `nnf` from the source, line by line.

* `Not` over a literal: `¬⊤ ↦ ⊥`, `¬⊥ ↦ ⊤`, `¬atom` unchanged (early return).
* `Not(Not(Not t))` (rule 3): collapses to `Not t` and, by the trailing
  recursive call of the source, continues as `nnf (Not t)`.
* `Not(Not s)` with `s` not a negation: the source mutates `node.r` to
  `nnf(node.r)` and returns the same node, i.e. `¬ (nnf ¬s)`.
* `Not(And a b)` (rule 4), `Not(Or a b)` (rule 5), `Not(Implies a b)`
  (rule 6, HT-specific: the antecedent becomes doubly negated): build the De
  Morgan / HT image and, via the trailing recursive call, normalize its two
  children.
* any other node: literals are returned; otherwise both children are
  normalized in place.

Deviations from the source, all outside the well-formed propositional
fragment: where Python would dereference an absent child (`AttributeError`)
the node is returned unchanged, and a `Not` over a quantifier (where the
source loops forever) is returned unchanged.  Fuel `0` returns the node; the
wrapper `nnf` supplies the sufficient fuel `wsize node`. -/
def nnfF : Nat → Node → Node
  | 0, node => node
  | fuel + 1, node =>
    if node.val = OP.NOT then
      match node.r with
      | none => node  -- source: AttributeError on node.r.is_literal()
      | some r =>
        if r.is_literal then
          if r.val = LIT.TRUE then Node.mk LIT.FALSE none none
          else if r.val = LIT.FALSE then Node.mk LIT.TRUE none none
          else node
        else if r.val = OP.NOT then
          match r.r with
          | none => node  -- source: AttributeError on node.r.r.val
          | some rr =>
            if rr.val = OP.NOT then nnfF fuel rr
            else Node.mk OP.NOT node.l (some (nnfF fuel r))
        else if r.val = OP.AND then
          Node.mk OP.OR (some (nnfF fuel (Node.mk OP.NOT none r.l)))
            (some (nnfF fuel (Node.mk OP.NOT none r.r)))
        else if r.val = OP.OR then
          Node.mk OP.AND (some (nnfF fuel (Node.mk OP.NOT none r.l)))
            (some (nnfF fuel (Node.mk OP.NOT none r.r)))
        else if r.val = OP.IMPLIES then
          Node.mk OP.AND
            (some (nnfF fuel (Node.mk OP.NOT none (some (Node.mk OP.NOT none r.l)))))
            (some (nnfF fuel (Node.mk OP.NOT none r.r)))
        else node  -- Not over a quantifier: the source loops forever here
    else if node.is_literal then node
    else
      Node.mk node.val
        (match node.l with | none => none | some a => some (nnfF fuel a))
        (match node.r with | none => none | some b => some (nnfF fuel b))

/-- `nnf` from the source: the fueled translation run with sufficient fuel. -/
def nnf (node : Node) : Node := nnfF (wsize node) node

/-! ### The normalizer -/

/-- A partial rule, the 4-tuple of the source: `f[0]` finished antecedent
literals (`A_done`), `f[1]` unfinished antecedent formulas (`A_todo`),
`f[2]` finished consequent literals (`C_done`), `f[3]` unfinished consequent
formulas (`C_todo`).  In Lean the components are `f.1`, `f.2.1`, `f.2.2.1`
and `f.2.2.2`. -/
abbrev RuleT := List Node × List Node × List Node × List Node

/-- `union` from the source: append each element of `s` not already in `l`. -/
def union {α : Type} [DecidableEq α] (l s : List α) : List α :=
  s.foldl (fun acc x => if x ∈ acc then acc else acc ++ [x]) l

/-- `difference` from the source: remove (the first occurrence of) each
element of `s` from `l`, ignoring absent elements. -/
def difference {α : Type} [DecidableEq α] (l s : List α) : List α :=
  s.foldl (fun acc x => acc.erase x) l

/-- `tautology` from the source: some antecedent literal also occurs in the
consequent. -/
def tautology (f : RuleT) : Bool :=
  f.1.any (fun x => x ∈ f.2.2.1)

/-- `subsumed` from the source: some rule `g` of `l` has `g[0] ⊆ f[0]` and
`g[2] ⊆ f[2]`. -/
def subsumed (f : RuleT) (l : List RuleT) : Bool :=
  l.any (fun g => g.1.all (fun a => a ∈ f.1) && g.2.2.1.all (fun b => b ∈ f.2.2.1))

/-- The test `a.r.is_literal()` of the source (its `a.r` access would raise on
a missing child; that spot is unreachable for well-formed rules). -/
def rIsLiteral (a : Node) : Bool :=
  match a.r with
  | some x => x.is_literal
  | none => false

/-- The test `a.r.val == OP.NOT` of the source (same remark). -/
def rIsNot (a : Node) : Bool :=
  match a.r with
  | some x => if x.val = OP.NOT then true else false
  | none => false

/-- Rule L1: a `⊥` in `A_todo` discards the partial rule. -/
def L1 (f : RuleT) : Bool × List RuleT :=
  match f.2.1.find? (fun a => a.val == LIT.FALSE) with
  | some _ => (true, [])
  | none => (false, [])

/-- Rule L2: a `⊤` in `A_todo` is removed. -/
def L2 (f : RuleT) : Bool × List RuleT :=
  match f.2.1.find? (fun a => a.val == LIT.TRUE) with
  | some a => (true, [(f.1, difference f.2.1 [a], f.2.2.1, f.2.2.2)])
  | none => (false, [])

/-- Rule L3: a literal or negated literal in `A_todo` moves to `A_done`. -/
def L3 (f : RuleT) : Bool × List RuleT :=
  match f.2.1.find? (fun a => a.is_literal || ((a.val == OP.NOT) && rIsLiteral a)) with
  | some a => (true, [(union f.1 [a], difference f.2.1 [a], f.2.2.1, f.2.2.2)])
  | none => (false, [])

/-- Rule L4: a doubly negated `a = ¬¬x` in `A_todo` is removed and `a.r`
(that is, `¬x` — not `x`) is added to `C_todo`. -/
def L4 (f : RuleT) : Bool × List RuleT :=
  match f.2.1.find? (fun a => (a.val == OP.NOT) && rIsNot a) with
  | some a =>
    match a.r with
    | some ar => (true, [(f.1, difference f.2.1 [a], f.2.2.1, union f.2.2.2 [ar])])
    | none => (true, [])  -- unreachable: the matched node has a right child
  | none => (false, [])

/-- Rule L5: a conjunction in `A_todo` is replaced by its two conjuncts. -/
def L5 (f : RuleT) : Bool × List RuleT :=
  match f.2.1.find? (fun a => a.val == OP.AND) with
  | some a =>
    match a.l with
    | some al =>
      match a.r with
      | some ar =>
        (true, [(f.1, union (difference f.2.1 [a]) [al, ar], f.2.2.1, f.2.2.2)])
      | none => (true, [])  -- unreachable for well-formed rules
    | none => (true, [])  -- unreachable for well-formed rules
  | none => (false, [])

/-- Rule L6: a disjunction in `A_todo` splits the rule in two. -/
def L6 (f : RuleT) : Bool × List RuleT :=
  match f.2.1.find? (fun a => a.val == OP.OR) with
  | some a =>
    match a.l with
    | some al =>
      match a.r with
      | some ar =>
        (true,
          [(f.1, union (difference f.2.1 [a]) [al], f.2.2.1, f.2.2.2),
           (f.1, union (difference f.2.1 [a]) [ar], f.2.2.1, f.2.2.2)])
      | none => (true, [])  -- unreachable for well-formed rules
    | none => (true, [])  -- unreachable for well-formed rules
  | none => (false, [])

/-- Rule L7: an implication `a → b` in `A_todo` splits the rule in three:
with `nnf(¬a)` in `A_todo`, with `b` in `A_todo`, and with `a` and `nnf(¬b)`
added to `C_todo`. -/
def L7 (f : RuleT) : Bool × List RuleT :=
  match f.2.1.find? (fun a => a.val == OP.IMPLIES) with
  | some a =>
    match a.l with
    | some al =>
      match a.r with
      | some ar =>
        let x := nnf (Node.mk OP.NOT none (some al))
        let g := (f.1, union (difference f.2.1 [a]) [x], f.2.2.1, f.2.2.2)
        let h := (f.1, union (difference f.2.1 [a]) [ar], f.2.2.1, f.2.2.2)
        let z := nnf (Node.mk OP.NOT none (some ar))
        let i := (f.1, difference f.2.1 [a], f.2.2.1, union f.2.2.2 [al, z])
        (true, [g, h, i])
      | none => (true, [])  -- unreachable for well-formed rules
    | none => (true, [])  -- unreachable for well-formed rules
  | none => (false, [])

/-- Rule R1: a `⊤` in `C_todo` discards the partial rule. -/
def R1 (f : RuleT) : Bool × List RuleT :=
  match f.2.2.2.find? (fun b => b.val == LIT.TRUE) with
  | some _ => (true, [])
  | none => (false, [])

/-- Rule R2: a `⊥` in `C_todo` is removed. -/
def R2 (f : RuleT) : Bool × List RuleT :=
  match f.2.2.2.find? (fun b => b.val == LIT.FALSE) with
  | some b => (true, [(f.1, f.2.1, f.2.2.1, difference f.2.2.2 [b])])
  | none => (false, [])

/-- Rule R3: a literal or negated literal in `C_todo` moves to `C_done`. -/
def R3 (f : RuleT) : Bool × List RuleT :=
  match f.2.2.2.find? (fun b => b.is_literal || ((b.val == OP.NOT) && rIsLiteral b)) with
  | some b => (true, [(f.1, f.2.1, union f.2.2.1 [b], difference f.2.2.2 [b])])
  | none => (false, [])

/-- Rule R4: a doubly negated `b = ¬¬x` in `C_todo` is removed and `b.r`
(that is, `¬x` — not `x`) is added to `A_todo`. -/
def R4 (f : RuleT) : Bool × List RuleT :=
  match f.2.2.2.find? (fun b => (b.val == OP.NOT) && rIsNot b) with
  | some b =>
    match b.r with
    | some br => (true, [(f.1, union f.2.1 [br], f.2.2.1, difference f.2.2.2 [b])])
    | none => (true, [])  -- unreachable: the matched node has a right child
  | none => (false, [])

/-- Rule R5: a disjunction in `C_todo` is replaced by its two disjuncts. -/
def R5 (f : RuleT) : Bool × List RuleT :=
  match f.2.2.2.find? (fun b => b.val == OP.OR) with
  | some b =>
    match b.l with
    | some bl =>
      match b.r with
      | some br =>
        (true, [(f.1, f.2.1, f.2.2.1, union (difference f.2.2.2 [b]) [bl, br])])
      | none => (true, [])  -- unreachable for well-formed rules
    | none => (true, [])  -- unreachable for well-formed rules
  | none => (false, [])

/-- Rule R6: a conjunction in `C_todo` splits the rule in two. -/
def R6 (f : RuleT) : Bool × List RuleT :=
  match f.2.2.2.find? (fun b => b.val == OP.AND) with
  | some b =>
    match b.l with
    | some bl =>
      match b.r with
      | some br =>
        (true,
          [(f.1, f.2.1, f.2.2.1, union (difference f.2.2.2 [b]) [bl]),
           (f.1, f.2.1, f.2.2.1, union (difference f.2.2.2 [b]) [br])])
      | none => (true, [])  -- unreachable for well-formed rules
    | none => (true, [])  -- unreachable for well-formed rules
  | none => (false, [])

/-- Rule R7 with the embedded simplification (`R7_simp` of the source, the
variant wired into `apply_substitution`): an implication `b = a → c` in
`C_todo` yields the branch `g` (antecedent `a` to `A_todo`, consequent `c` to
`C_todo`), and, unless `C_done` is empty and `C_todo` was the singleton `[b]`,
also the branch `h` (`nnf(¬c)` to `A_todo`, `nnf(¬a)` to `C_todo`). -/
def R7_simp (f : RuleT) : Bool × List RuleT :=
  match f.2.2.2.find? (fun b => b.val == OP.IMPLIES) with
  | some b =>
    match b.l with
    | some bl =>
      match b.r with
      | some br =>
        let g := (f.1, union f.2.1 [bl], f.2.2.1, union (difference f.2.2.2 [b]) [br])
        if (f.2.2.1.length = 0) ∧ (f.2.2.2.length = 1) then
          (true, [g])
        else
          let v := nnf (Node.mk OP.NOT none (some br))
          let w := nnf (Node.mk OP.NOT none (some bl))
          let h := (f.1, union f.2.1 [v], f.2.2.1, union (difference f.2.2.2 [b]) [w])
          (true, [g, h])
      | none => (true, [])  -- unreachable for well-formed rules
    | none => (true, [])  -- unreachable for well-formed rules
  | none => (false, [])

/-- Scan a rule list for the first applicable rule, as the loop of
`apply_substitution` does; no applicable rule yields `[]`. -/
def firstApplicable (rules : List (RuleT → Bool × List RuleT)) (f : RuleT) : List RuleT :=
  match rules with
  | [] => []
  | rule :: rest =>
    if (rule f).1 then (rule f).2 else firstApplicable rest f

/-- `apply_substitution` from the source; the `right` rule list ends with
`R7_simp` (the plain `R7` of the source is dead code).  Only the strings
`"left"` and `"right"` are ever passed (the source indexes a dict). -/
def apply_substitution (f : RuleT) (side : String) : List RuleT :=
  if side = "left" then firstApplicable [L1, L2, L3, L4, L5, L6, L7] f
  else firstApplicable [R1, R2, R3, R4, R5, R6, R7_simp] f

/-- The iterative worklist loop of `normalize`, with fuel.  Python
`sn.pop()` removes the END of the list and `sn.extend` appends there, which is
mirrored exactly with `getLast` / `dropLast` / `++`. -/
def normalizeF : Nat → List RuleT → List RuleT → Option (List RuleT)
  | _, st, [] => some st
  | 0, _, _ => none
  | fuel + 1, st, s0 :: srest =>
    let f := (s0 :: srest).getLast (List.cons_ne_nil s0 srest)
    let sn1 := (s0 :: srest).dropLast
    let newformulas :=
      if f.2.2.2.length ≠ 0 then apply_substitution f "right"
      else if f.2.1.length ≠ 0 then apply_substitution f "left"
      else [f]
    if newformulas = [f] then normalizeF fuel (st ++ newformulas) sn1
    else normalizeF fuel st (sn1 ++ newformulas)

/-- The seed partial rule of `normalization`: an implication is split into
antecedent and consequent, anything else becomes the sole pending
consequent. -/
def seedRule (node : Node) : RuleT :=
  if node.val = OP.IMPLIES then
    match node.l, node.r with
    | some a, some b => ([], [a], [], [b])
    | _, _ => ([], [], [], [node])  -- unreachable: implications have both children
  else ([], [], [], [node])

/-- `normalization` from the source, with the fuel of the inner worklist made
explicit.  It seeds one partial rule, runs `normalize`, computes the
tautology-free and subsumption-free lists, and then — as the source does —
builds the solution set by iterating over the UNFILTERED `normlist`. -/
def normalization (fuel : Nat) (node : Node) : Option (List String) :=
  let t : RuleT := seedRule node
  match normalizeF fuel [] [t] with
  | none => none
  | some normlist =>
    let no_taut_list := normlist.filter (fun g => !tautology g)
    let no_subs_list := no_taut_list.filter (fun g => !subsumed g (difference normlist [g]))
    let solution := normlist.foldl
      (fun sol g =>
        let s := String.intercalate " & " (g.1.map Node.get_string)
          ++ " > "
          ++ String.intercalate " | " (g.2.2.1.map Node.get_string)
        if s ∈ sol then sol else sol ++ [s])
      []
    some solution

/-! ### Fuel sufficiency for `nnfF` -/

theorem nnfF_congr : ∀ (f1 : Nat) (node : Node) (f2 : Nat),
    wsize node ≤ f1 → wsize node ≤ f2 → nnfF f1 node = nnfF f2 node := by
  intro f1
  induction f1 with
  | zero =>
    intro node f2 h1 _
    exact absurd h1 (by have := wsize_pos node; omega)
  | succ f1 ih =>
    intro node f2 h1 h2
    obtain ⟨f2q, rfl⟩ : ∃ k, f2 = k + 1 := ⟨f2 - 1, by have := wsize_pos node; omega⟩
    obtain ⟨v, l, r⟩ := node
    have hw := wsize_mk v l r
    have hwite : (1 : Nat) ≤ if v = OP.IMPLIES then 2 else 1 := by split <;> omega
    simp only [nnfF, Node.val_mk, Node.l_mk, Node.r_mk]
    by_cases hv : v = OP.NOT
    · simp only [if_pos hv]
      cases r with
      | none => rfl
      | some rn =>
        have hrn : wsize rn + 1 ≤ wsize (Node.mk v l (some rn)) := by
          have := wsize_ge (Node.mk v l (some rn))
          simp only [Node.l_mk, Node.r_mk, osize_some] at this
          omega
        by_cases hlit : rn.is_literal = true
        · simp only [if_pos hlit]
        · simp only [if_neg hlit]
          by_cases hnot : rn.val = OP.NOT
          · simp only [if_pos hnot]
            cases hrr : rn.r with
            | none => rfl
            | some rr =>
              have hrrw : wsize rr + 1 ≤ wsize rn := by
                have := wsize_ge rn
                rw [hrr] at this
                simp only [osize_some] at this
                omega
              by_cases hrrv : rr.val = OP.NOT
              · simp only [if_pos hrrv]
                exact ih rr f2q (by omega) (by omega)
              · simp only [if_neg hrrv]
                rw [ih rn f2q (by omega) (by omega)]
          · simp only [if_neg hnot]
            have hargl := wsize_not rn.l
            have hargr := wsize_not rn.r
            have hge := wsize_ge rn
            by_cases hand : rn.val = OP.AND
            · simp only [if_pos hand]
              rw [ih (Node.mk OP.NOT none rn.l) f2q (by omega) (by omega),
                  ih (Node.mk OP.NOT none rn.r) f2q (by omega) (by omega)]
            · simp only [if_neg hand]
              by_cases hor : rn.val = OP.OR
              · simp only [if_pos hor]
                rw [ih (Node.mk OP.NOT none rn.l) f2q (by omega) (by omega),
                    ih (Node.mk OP.NOT none rn.r) f2q (by omega) (by omega)]
              · simp only [if_neg hor]
                by_cases himp : rn.val = OP.IMPLIES
                · simp only [if_pos himp]
                  have hrimp := wsize_imp rn himp
                  have harg2 := wsize_not2 rn.l
                  rw [ih (Node.mk OP.NOT none (some (Node.mk OP.NOT none rn.l))) f2q
                        (by omega) (by omega),
                      ih (Node.mk OP.NOT none rn.r) f2q (by omega) (by omega)]
                · simp only [if_neg himp]
    · simp only [if_neg hv]
      by_cases hlit : (Node.mk v l r).is_literal = true
      · simp only [if_pos hlit]
      · simp only [if_neg hlit]
        cases l with
        | none =>
          cases r with
          | none => rfl
          | some b =>
            have : wsize b + 1 ≤ wsize (Node.mk v none (some b)) := by
              have := wsize_ge (Node.mk v none (some b))
              simp only [Node.l_mk, Node.r_mk, osize_some, osize_none] at this
              omega
            simp only []
            rw [ih b f2q (by omega) (by omega)]
        | some a =>
          have ha : wsize a + 1 ≤ wsize (Node.mk v (some a) r) := by
            have := wsize_ge (Node.mk v (some a) r)
            simp only [Node.l_mk, Node.r_mk, osize_some] at this
            omega
          cases r with
          | none =>
            simp only []
            rw [ih a f2q (by omega) (by omega)]
          | some b =>
            have hb : wsize a + wsize b + 1 ≤ wsize (Node.mk v (some a) (some b)) := by
              have := wsize_ge (Node.mk v (some a) (some b))
              simp only [Node.l_mk, Node.r_mk, osize_some] at this
              omega
            simp only []
            rw [ih a f2q (by omega) (by omega), ih b f2q (by omega) (by omega)]

theorem nnfF_eq_nnf (fuel : Nat) (node : Node) (h : wsize node ≤ fuel) :
    nnfF fuel node = nnf node :=
  nnfF_congr fuel node (wsize node) h (le_refl _)

/-- One unfolding of `nnf`, with the recursive occurrences again `nnf`:
the right-hand side of the unfolding lemma `nnf_eq_step`. -/
def nnfStep (node : Node) : Node :=
  if node.val = OP.NOT then
    match node.r with
    | none => node
    | some r =>
      if r.is_literal then
        if r.val = LIT.TRUE then Node.mk LIT.FALSE none none
        else if r.val = LIT.FALSE then Node.mk LIT.TRUE none none
        else node
      else if r.val = OP.NOT then
        match r.r with
        | none => node
        | some rr =>
          if rr.val = OP.NOT then nnf rr
          else Node.mk OP.NOT node.l (some (nnf r))
      else if r.val = OP.AND then
        Node.mk OP.OR (some (nnf (Node.mk OP.NOT none r.l)))
          (some (nnf (Node.mk OP.NOT none r.r)))
      else if r.val = OP.OR then
        Node.mk OP.AND (some (nnf (Node.mk OP.NOT none r.l)))
          (some (nnf (Node.mk OP.NOT none r.r)))
      else if r.val = OP.IMPLIES then
        Node.mk OP.AND
          (some (nnf (Node.mk OP.NOT none (some (Node.mk OP.NOT none r.l)))))
          (some (nnf (Node.mk OP.NOT none r.r)))
      else node
  else if node.is_literal then node
  else
    Node.mk node.val
      (match node.l with | none => none | some a => some (nnf a))
      (match node.r with | none => none | some b => some (nnf b))

theorem nnf_eq_step (node : Node) : nnf node = nnfStep node := by
  obtain ⟨k, hk⟩ : ∃ k, wsize node = k + 1 := ⟨wsize node - 1, by have := wsize_pos node; omega⟩
  show nnfF (wsize node) node = nnfStep node
  rw [hk]
  obtain ⟨v, l, r⟩ := node
  have hw := wsize_mk v l r
  have hwite : (1 : Nat) ≤ if v = OP.IMPLIES then 2 else 1 := by split <;> omega
  simp only [nnfF, nnfStep, Node.val_mk, Node.l_mk, Node.r_mk]
  by_cases hv : v = OP.NOT
  · simp only [if_pos hv]
    cases r with
    | none => rfl
    | some rn =>
      have hrn : wsize rn + 1 ≤ wsize (Node.mk v l (some rn)) := by
        have := wsize_ge (Node.mk v l (some rn))
        simp only [Node.l_mk, Node.r_mk, osize_some] at this
        omega
      rw [wsize_mk] at hk
      simp only [osize_some] at hk
      by_cases hlit : rn.is_literal = true
      · simp only [if_pos hlit]
      · simp only [if_neg hlit]
        by_cases hnot : rn.val = OP.NOT
        · simp only [if_pos hnot]
          cases hrr : rn.r with
          | none => rfl
          | some rr =>
            have hrrw : wsize rr + 1 ≤ wsize rn := by
              have := wsize_ge rn
              rw [hrr] at this
              simp only [osize_some] at this
              omega
            by_cases hrrv : rr.val = OP.NOT
            · simp only [if_pos hrrv]
              exact nnfF_eq_nnf k rr (by
                have := wsize_mk v l (some rn)
                simp only [osize_some] at this
                omega)
            · simp only [if_neg hrrv]
              rw [nnfF_eq_nnf k rn (by omega)]
        · simp only [if_neg hnot]
          have hargl := wsize_not rn.l
          have hargr := wsize_not rn.r
          have hge := wsize_ge rn
          by_cases hand : rn.val = OP.AND
          · simp only [if_pos hand]
            rw [nnfF_eq_nnf k (Node.mk OP.NOT none rn.l) (by omega),
                nnfF_eq_nnf k (Node.mk OP.NOT none rn.r) (by omega)]
          · simp only [if_neg hand]
            by_cases hor : rn.val = OP.OR
            · simp only [if_pos hor]
              rw [nnfF_eq_nnf k (Node.mk OP.NOT none rn.l) (by omega),
                  nnfF_eq_nnf k (Node.mk OP.NOT none rn.r) (by omega)]
            · simp only [if_neg hor]
              by_cases himp : rn.val = OP.IMPLIES
              · simp only [if_pos himp]
                have hrimp := wsize_imp rn himp
                have harg2 := wsize_not2 rn.l
                rw [nnfF_eq_nnf k (Node.mk OP.NOT none (some (Node.mk OP.NOT none rn.l)))
                      (by omega),
                    nnfF_eq_nnf k (Node.mk OP.NOT none rn.r) (by omega)]
              · simp only [if_neg himp]
  · simp only [if_neg hv]
    by_cases hlit : (Node.mk v l r).is_literal = true
    · simp only [if_pos hlit]
    · simp only [if_neg hlit]
      rw [wsize_mk] at hk
      cases l with
      | none =>
        cases r with
        | none => rfl
        | some b =>
          simp only [osize_none, osize_some] at hk
          simp only []
          rw [nnfF_eq_nnf k b (by omega)]
      | some a =>
        cases r with
        | none =>
          simp only [osize_none, osize_some] at hk
          simp only []
          rw [nnfF_eq_nnf k a (by omega)]
        | some b =>
          simp only [osize_some] at hk
          have hpa := wsize_pos a
          have hpb := wsize_pos b
          simp only []
          rw [nnfF_eq_nnf k a (by omega), nnfF_eq_nnf k b (by omega)]

/-! ### Shape predicates on expression trees -/

/-- Well-formed propositional expression: the trees the parser builds from
purely propositional input.  Negation is unary (only a right child), the
binary connectives have both children, quantifiers are excluded, and
literal-valued nodes are leaves. -/
def istProp : Node → Bool
  | .mk v l r =>
    if v = OP.NOT then
      (match l with | none => true | some _ => false)
        && (match r with | some c => istProp c | none => false)
    else if (v = OP.AND) ∨ (v = OP.OR) ∨ (v = OP.IMPLIES) then
      (match l with | some a => istProp a | none => false)
        && (match r with | some b => istProp b | none => false)
    else if (v = OP.EXISTS) ∨ (v = OP.FORALL) then false
    else
      (match l with | none => true | some _ => false)
        && (match r with | none => true | some _ => false)

/-- An atom string: a literal value that is not a truth constant. -/
def isAtomVal (v : String) : Bool :=
  if (v = OP.NOT) ∨ (v = OP.IMPLIES) ∨ (v = OP.AND) ∨ (v = OP.OR)
      ∨ (v = OP.EXISTS) ∨ (v = OP.FORALL) ∨ (v = LIT.TRUE) ∨ (v = LIT.FALSE) then false
  else true

/-- What a well-behaved negation may wrap: an atom or a negated atom. -/
def notTarget (c : Node) : Bool :=
  isAtomVal c.val
    || (if c.val = OP.NOT then
          match c.r with
          | some d => isAtomVal d.val
          | none => false
        else false)

/-- Every negation in the tree wraps an atom or a negated atom (the shapes
`nnf` leaves untouched). -/
def goodNots : Node → Bool
  | .mk v l r =>
    (if v = OP.NOT then
       match r with
       | some c => notTarget c
       | none => false
     else true)
      && (match l with | none => true | some a => goodNots a)
      && (match r with | none => true | some b => goodNots b)

/-- No implication node anywhere in the tree. -/
def impFree : Node → Bool
  | .mk v l r =>
    (if v = OP.IMPLIES then false else true)
      && (match l with | none => true | some a => impFree a)
      && (match r with | none => true | some b => impFree b)

/-- No implication node strictly below a negation node. -/
def noImpUnderNot : Node → Bool
  | .mk v l r =>
    if v = OP.NOT then
      (match l with | none => true | some a => impFree a)
        && (match r with | none => true | some b => impFree b)
    else
      (match l with | none => true | some a => noImpUnderNot a)
        && (match r with | none => true | some b => noImpUnderNot b)

/-- The shape asserted by the spec's NNF-shape property: every negation
wraps a literal or a negated literal (in the source's sense of literal,
which includes the truth constants). -/
def notsShallow : Node → Bool
  | .mk v l r =>
    (if v = OP.NOT then
       match r with
       | some c => c.is_literal || (if c.val = OP.NOT then rIsLiteral c else false)
       | none => false
     else true)
      && (match l with | none => true | some a => notsShallow a)
      && (match r with | none => true | some b => notsShallow b)

theorem isAtomVal_spec (v : String) (h : isAtomVal v = true) :
    v ≠ OP.NOT ∧ v ≠ OP.IMPLIES ∧ v ≠ OP.AND ∧ v ≠ OP.OR ∧ v ≠ OP.EXISTS
      ∧ v ≠ OP.FORALL ∧ v ≠ LIT.TRUE ∧ v ≠ LIT.FALSE := by
  unfold isAtomVal at h
  split at h
  · exact absurd h (by decide)
  · tauto

theorem isAtomVal_is_literal (v : String) (l r : Option Node) (h : isAtomVal v = true) :
    (Node.mk v l r).is_literal = true := by
  obtain ⟨h1, h2, h3, h4, h5, h6, _, _⟩ := isAtomVal_spec v h
  unfold Node.is_literal
  simp [h1, h2, h3, h4, h5, h6]

theorem istProp_not_intro (x : Node) (h : istProp x = true) :
    istProp (Node.mk OP.NOT none (some x)) = true := by
  unfold istProp
  simp [h]

theorem istProp_cases (v : String) (l r : Option Node)
    (h : istProp (Node.mk v l r) = true) :
    (v = OP.NOT ∧ l = none ∧ ∃ c, r = some c ∧ istProp c = true)
    ∨ ((v = OP.AND ∨ v = OP.OR ∨ v = OP.IMPLIES) ∧
        ∃ a b, l = some a ∧ r = some b ∧ istProp a = true ∧ istProp b = true)
    ∨ ((Node.mk v l r).is_literal = true ∧ l = none ∧ r = none) := by
  unfold istProp at h
  by_cases h1 : v = OP.NOT
  · left
    refine ⟨h1, ?_⟩
    rw [if_pos h1] at h
    simp only [Bool.and_eq_true] at h
    obtain ⟨hl, hr⟩ := h
    constructor
    · match l, hl with
      | none, _ => rfl
    · match r, hr with
      | some c, hc => exact ⟨c, rfl, hc⟩
  · rw [if_neg h1] at h
    by_cases h2 : (v = OP.AND) ∨ (v = OP.OR) ∨ (v = OP.IMPLIES)
    · right; left
      refine ⟨by tauto, ?_⟩
      rw [if_pos h2] at h
      simp only [Bool.and_eq_true] at h
      obtain ⟨hl, hr⟩ := h
      match l, r, hl, hr with
      | some a, some b, ha, hb => exact ⟨a, b, rfl, rfl, ha, hb⟩
    · rw [if_neg h2] at h
      by_cases h3 : (v = OP.EXISTS) ∨ (v = OP.FORALL)
      · rw [if_pos h3] at h
        exact absurd h (by decide)
      · rw [if_neg h3] at h
        right; right
        simp only [Bool.and_eq_true] at h
        obtain ⟨hl, hr⟩ := h
        refine ⟨?_, ?_, ?_⟩
        · unfold Node.is_literal
          simp only [Node.val_mk]
          rw [if_neg (by tauto)]
        · match l, hl with
          | none, _ => rfl
        · match r, hr with
          | none, _ => rfl

theorem is_literal_spec (v : String) (l r : Option Node)
    (h : (Node.mk v l r).is_literal = true) :
    v ≠ OP.NOT ∧ v ≠ OP.IMPLIES ∧ v ≠ OP.AND ∧ v ≠ OP.OR ∧ v ≠ OP.EXISTS ∧ v ≠ OP.FORALL := by
  unfold Node.is_literal at h
  simp only [Node.val_mk] at h
  split at h
  · exact absurd h (by decide)
  · tauto

theorem is_literal_of_not (v : String) (l r : Option Node) (h : v = OP.NOT) :
    (Node.mk v l r).is_literal = false := by
  unfold Node.is_literal
  simp [h]

theorem is_literal_val_false (v : String) (l r : Option Node)
    (h : (v = OP.NOT) ∨ (v = OP.IMPLIES) ∨ (v = OP.AND) ∨ (v = OP.OR)
      ∨ (v = OP.EXISTS) ∨ (v = OP.FORALL)) :
    (Node.mk v l r).is_literal = false := by
  unfold Node.is_literal
  simp only [Node.val_mk]
  rw [if_pos h]

/-! ### Shape equations for `nnf`, one per branch of the source -/

theorem nnf_lit (v : String) (l r : Option Node) (h : (Node.mk v l r).is_literal = true) :
    nnf (Node.mk v l r) = Node.mk v l r := by
  rw [nnf_eq_step]
  unfold nnfStep
  simp only [Node.val_mk]
  rw [if_neg (is_literal_spec v l r h).1, if_pos h]

theorem nnf_not_noner (l : Option Node) :
    nnf (Node.mk OP.NOT l none) = Node.mk OP.NOT l none := by
  rw [nnf_eq_step]
  unfold nnfStep
  simp only [Node.val_mk, Node.r_mk]
  rw [if_pos trivial]

theorem nnf_not_true (l cl cr : Option Node) :
    nnf (Node.mk OP.NOT l (some (Node.mk LIT.TRUE cl cr))) = Node.mk LIT.FALSE none none := by
  rw [nnf_eq_step]
  unfold nnfStep
  simp only [Node.val_mk, Node.r_mk]
  rw [if_pos trivial]
  rw [if_pos (by unfold Node.is_literal; simp only [Node.val_mk]; rw [if_neg (by decide)])]
  rw [if_pos trivial]

theorem nnf_not_false (l cl cr : Option Node) :
    nnf (Node.mk OP.NOT l (some (Node.mk LIT.FALSE cl cr))) = Node.mk LIT.TRUE none none := by
  rw [nnf_eq_step]
  unfold nnfStep
  simp only [Node.val_mk, Node.r_mk]
  rw [if_pos trivial]
  rw [if_pos (by unfold Node.is_literal; simp only [Node.val_mk]; rw [if_neg (by decide)])]
  rw [if_neg (by decide), if_pos trivial]

theorem nnf_not_atom (l : Option Node) (c : Node) (hlit : c.is_literal = true)
    (ht : c.val ≠ LIT.TRUE) (hf : c.val ≠ LIT.FALSE) :
    nnf (Node.mk OP.NOT l (some c)) = Node.mk OP.NOT l (some c) := by
  rw [nnf_eq_step]
  unfold nnfStep
  simp only [Node.val_mk, Node.r_mk]
  rw [if_pos trivial, if_pos hlit, if_neg ht, if_neg hf]

theorem nnf_not_not_noner (l cl : Option Node) :
    nnf (Node.mk OP.NOT l (some (Node.mk OP.NOT cl none)))
      = Node.mk OP.NOT l (some (Node.mk OP.NOT cl none)) := by
  rw [nnf_eq_step]
  unfold nnfStep
  simp only [Node.val_mk, Node.r_mk]
  rw [if_pos trivial]
  rw [if_neg (by rw [is_literal_val_false OP.NOT cl none (by tauto)]; exact Bool.false_ne_true)]
  rw [if_pos trivial]

theorem nnf_tripleneg (l cl : Option Node) (rr : Node) (h : rr.val = OP.NOT) :
    nnf (Node.mk OP.NOT l (some (Node.mk OP.NOT cl (some rr)))) = nnf rr := by
  rw [nnf_eq_step]
  unfold nnfStep
  simp only [Node.val_mk, Node.r_mk]
  rw [if_pos trivial]
  rw [if_neg (by rw [is_literal_val_false OP.NOT cl (some rr) (by tauto)]; exact Bool.false_ne_true)]
  rw [if_pos trivial]
  rw [if_pos h]

theorem nnf_dblneg (l cl : Option Node) (rr : Node) (h : rr.val ≠ OP.NOT) :
    nnf (Node.mk OP.NOT l (some (Node.mk OP.NOT cl (some rr))))
      = Node.mk OP.NOT l (some (nnf (Node.mk OP.NOT cl (some rr)))) := by
  rw [nnf_eq_step]
  unfold nnfStep
  simp only [Node.val_mk, Node.r_mk, Node.l_mk]
  rw [if_pos trivial]
  rw [if_neg (by rw [is_literal_val_false OP.NOT cl (some rr) (by tauto)]; exact Bool.false_ne_true)]
  rw [if_pos trivial]
  rw [if_neg h]

theorem nnf_not_and (l cl cr : Option Node) :
    nnf (Node.mk OP.NOT l (some (Node.mk OP.AND cl cr)))
      = Node.mk OP.OR (some (nnf (Node.mk OP.NOT none cl)))
          (some (nnf (Node.mk OP.NOT none cr))) := by
  rw [nnf_eq_step]
  unfold nnfStep
  simp only [Node.val_mk, Node.r_mk, Node.l_mk]
  rw [if_pos trivial]
  rw [if_neg (by rw [is_literal_val_false OP.AND cl cr (by tauto)]; exact Bool.false_ne_true)]
  rw [if_neg (by decide), if_pos trivial]

theorem nnf_not_or (l cl cr : Option Node) :
    nnf (Node.mk OP.NOT l (some (Node.mk OP.OR cl cr)))
      = Node.mk OP.AND (some (nnf (Node.mk OP.NOT none cl)))
          (some (nnf (Node.mk OP.NOT none cr))) := by
  rw [nnf_eq_step]
  unfold nnfStep
  simp only [Node.val_mk, Node.r_mk, Node.l_mk]
  rw [if_pos trivial]
  rw [if_neg (by rw [is_literal_val_false OP.OR cl cr (by tauto)]; exact Bool.false_ne_true)]
  rw [if_neg (by decide), if_neg (by decide), if_pos trivial]

theorem nnf_not_imp (l cl cr : Option Node) :
    nnf (Node.mk OP.NOT l (some (Node.mk OP.IMPLIES cl cr)))
      = Node.mk OP.AND
          (some (nnf (Node.mk OP.NOT none (some (Node.mk OP.NOT none cl)))))
          (some (nnf (Node.mk OP.NOT none cr))) := by
  rw [nnf_eq_step]
  unfold nnfStep
  simp only [Node.val_mk, Node.r_mk, Node.l_mk]
  rw [if_pos trivial]
  rw [if_neg (by rw [is_literal_val_false OP.IMPLIES cl cr (by tauto)]; exact Bool.false_ne_true)]
  rw [if_neg (by decide), if_neg (by decide), if_neg (by decide), if_pos trivial]

theorem nnf_not_quant (l : Option Node) (c : Node) (hlit : c.is_literal = false)
    (h1 : c.val ≠ OP.NOT) (h2 : c.val ≠ OP.AND) (h3 : c.val ≠ OP.OR)
    (h4 : c.val ≠ OP.IMPLIES) :
    nnf (Node.mk OP.NOT l (some c)) = Node.mk OP.NOT l (some c) := by
  rw [nnf_eq_step]
  unfold nnfStep
  simp only [Node.val_mk, Node.r_mk]
  rw [if_pos trivial]
  rw [if_neg (by rw [hlit]; exact Bool.false_ne_true)]
  rw [if_neg h1, if_neg h2, if_neg h3, if_neg h4]

theorem nnf_rec (v : String) (l r : Option Node) (hv : v ≠ OP.NOT)
    (hlit : (Node.mk v l r).is_literal = false) :
    nnf (Node.mk v l r) = Node.mk v (l.map nnf) (r.map nnf) := by
  rw [nnf_eq_step]
  unfold nnfStep
  simp only [Node.val_mk, Node.l_mk, Node.r_mk]
  rw [if_neg hv]
  rw [if_neg (by rw [hlit]; exact Bool.false_ne_true)]
  cases l <;> cases r <;> rfl

theorem nnf_bin (v : String) (a b : Node) (hv : v ≠ OP.NOT)
    (hlit : (Node.mk v (some a) (some b)).is_literal = false) :
    nnf (Node.mk v (some a) (some b)) = Node.mk v (some (nnf a)) (some (nnf b)) := by
  rw [nnf_rec v (some a) (some b) hv hlit]
  rfl

/-! ### Structural consequences of `nnf` -/

/-- Formulas in which every negation wraps an atom or a negated atom are
fixed points of `nnf`. -/
theorem nnf_fix_aux : ∀ (n : Nat) (psi : Node),
    wsize psi ≤ n → goodNots psi = true → nnf psi = psi := by
  intro n
  induction n with
  | zero =>
    intro psi h _
    exact absurd h (by have := wsize_pos psi; omega)
  | succ n ih =>
    intro psi hsz hg
    obtain ⟨v, l, r⟩ := psi
    unfold goodNots at hg
    simp only [Bool.and_eq_true] at hg
    obtain ⟨⟨hhead, hgl⟩, hgr⟩ := hg
    by_cases hv : v = OP.NOT
    · subst hv
      rw [if_pos rfl] at hhead
      cases r with
      | none => exact absurd hhead (by decide)
      | some c =>
        simp only [] at hhead
        unfold notTarget at hhead
        simp only [Bool.or_eq_true] at hhead
        simp only [] at hgr
        have hszc : wsize c + 1 ≤ wsize (Node.mk OP.NOT l (some c)) := by
          have := wsize_ge (Node.mk OP.NOT l (some c))
          simp only [Node.l_mk, Node.r_mk, osize_some] at this
          omega
        rcases hhead with hatom | hneg
        · obtain ⟨_, _, _, _, _, _, hc7, hc8⟩ := isAtomVal_spec c.val hatom
          have hlit : c.is_literal = true := by
            obtain ⟨cv, cl, cr⟩ := c
            unfold Node.is_literal
            simp only [Node.val_mk] at hatom ⊢
            obtain ⟨d1, d2, d3, d4, d5, d6, _, _⟩ := isAtomVal_spec cv hatom
            simp [d1, d2, d3, d4, d5, d6]
          exact nnf_not_atom l c hlit hc7 hc8
        · split at hneg
          next hcv =>
            cases hcr : c.r with
            | none => rw [hcr] at hneg; exact absurd hneg (by decide)
            | some d =>
              rw [hcr] at hneg
              simp only [] at hneg
              obtain ⟨cv, cl, cr⟩ := c
              simp only [Node.val_mk] at hcv
              simp only [Node.r_mk] at hcr
              subst hcv hcr
              have hd := isAtomVal_spec d.val hneg
              rw [nnf_dblneg l cl d hd.1]
              rw [ih (Node.mk OP.NOT cl (some d)) (by omega) hgr]
          next => exact absurd hneg (by decide)
    · by_cases hlit : (Node.mk v l r).is_literal = true
      · exact nnf_lit v l r hlit
      · rw [nnf_rec v l r hv (by rw [Bool.eq_false_iff]; exact hlit)]
        have hwl : osize l + osize r + 1 ≤ wsize (Node.mk v l r) := by
          have := wsize_ge (Node.mk v l r)
          simp only [Node.l_mk, Node.r_mk] at this
          omega
        cases l with
        | none =>
          cases r with
          | none => rfl
          | some b =>
            simp only [osize_some, osize_none] at hwl
            simp only [Option.map_none', Option.map_some']
            rw [ih b (by omega) hgr]
        | some a =>
          cases r with
          | none =>
            simp only [osize_some, osize_none] at hwl
            simp only [Option.map_none', Option.map_some']
            rw [ih a (by omega) hgl]
          | some b =>
            simp only [osize_some] at hwl
            have hpa := wsize_pos a
            have hpb := wsize_pos b
            simp only [Option.map_some']
            rw [ih a (by omega) hgl, ih b (by omega) hgr]

/-- For a well-formed propositional `x`, `nnf (¬x)` contains no implication
node at all. -/
theorem impFree_nnf_not_aux : ∀ (n : Nat) (x : Node),
    wsize x ≤ n → istProp x = true →
    impFree (nnf (Node.mk OP.NOT none (some x))) = true := by
  intro n
  induction n with
  | zero =>
    intro x h _
    exact absurd h (by have := wsize_pos x; omega)
  | succ n ih =>
    intro x hsz hp
    obtain ⟨xv, xl, xr⟩ := x
    rcases istProp_cases xv xl xr hp with ⟨hxv, hxl, c, hxr, hc⟩
      | ⟨hxv, a, b, hxl, hxr, ha, hb⟩ | ⟨hxlit, hxl, hxr⟩
    · -- x = ¬c
      subst hxv hxl hxr
      have hwx : wsize (Node.mk OP.NOT none (some c)) = 1 + wsize c := by
        rw [wsize_not, osize_some]
      by_cases hcv : c.val = OP.NOT
      · rw [nnf_tripleneg none none c hcv]
        obtain ⟨cv, cl, cr⟩ := c
        simp only [Node.val_mk] at hcv
        rcases istProp_cases cv cl cr hc with ⟨_, hcl, u, hcr, hu⟩ | ⟨hbad, _⟩ | ⟨hbad, _, _⟩
        · subst hcl hcr hcv
          have hwc : wsize (Node.mk OP.NOT none (some u)) = 1 + wsize u := by
            rw [wsize_not, osize_some]
          exact ih u (by omega) hu
        · subst hcv
          rcases hbad with h | h | h <;> exact absurd h (by decide)
        · rw [is_literal_val_false cv cl cr (by tauto)] at hbad
          exact absurd hbad Bool.false_ne_true
      · rw [nnf_dblneg none none c hcv]
        unfold impFree
        simp only [Bool.and_eq_true]
        refine ⟨⟨by decide, trivial⟩, ?_⟩
        have := ih c (by omega) hc
        simpa using this
    · -- x = a ∘ b for ∘ ∈ {∧, ∨, →}
      subst hxl hxr
      have hwa := wsize_pos a
      have hwb := wsize_pos b
      have hwx := wsize_mk xv (some a) (some b)
      simp only [osize_some] at hwx
      rcases hxv with h | h | h
      · subst h
        rw [nnf_not_and none (some a) (some b)]
        rw [if_neg (by decide)] at hwx
        unfold impFree
        simp only [Bool.and_eq_true]
        refine ⟨⟨by decide, ?_⟩, ?_⟩
        · simpa using ih a (by omega) ha
        · simpa using ih b (by omega) hb
      · subst h
        rw [nnf_not_or none (some a) (some b)]
        rw [if_neg (by decide)] at hwx
        unfold impFree
        simp only [Bool.and_eq_true]
        refine ⟨⟨by decide, ?_⟩, ?_⟩
        · simpa using ih a (by omega) ha
        · simpa using ih b (by omega) hb
      · subst h
        rw [nnf_not_imp none (some a) (some b)]
        rw [if_pos rfl] at hwx
        unfold impFree
        simp only [Bool.and_eq_true]
        refine ⟨⟨by decide, ?_⟩, ?_⟩
        · have harg : istProp (Node.mk OP.NOT none (some a)) = true := istProp_not_intro a ha
          have hwarg : wsize (Node.mk OP.NOT none (some a)) = 1 + wsize a := by
            rw [wsize_not, osize_some]
          simpa using ih (Node.mk OP.NOT none (some a)) (by omega) harg
        · simpa using ih b (by omega) hb
    · -- x a literal leaf
      subst hxl hxr
      by_cases ht : xv = LIT.TRUE
      · subst ht
        rw [nnf_not_true none none none]
        decide
      · by_cases hf : xv = LIT.FALSE
        · subst hf
          rw [nnf_not_false none none none]
          decide
        · rw [nnf_not_atom none (Node.mk xv none none) hxlit (by simpa using ht) (by simpa using hf)]
          obtain ⟨_, h2, _, _, _, _⟩ := is_literal_spec xv none none hxlit
          have hni : ¬(OP.NOT = OP.IMPLIES) := by decide
          have hinner : impFree (Node.mk xv none none) = true := by
            unfold impFree
            simp [h2]
          unfold impFree
          simp [hinner, hni]

theorem impFree_nnf_not (x : Node) (h : istProp x = true) :
    impFree (nnf (Node.mk OP.NOT none (some x))) = true :=
  impFree_nnf_not_aux (wsize x) x le_rfl h

/-- No implication anywhere implies no implication below a negation. -/
theorem impFree_noImp : ∀ (psi : Node), impFree psi = true → noImpUnderNot psi = true
  | .mk v l r => by
    intro h
    unfold impFree at h
    simp only [Bool.and_eq_true] at h
    obtain ⟨⟨_, hl⟩, hr⟩ := h
    unfold noImpUnderNot
    by_cases hv : v = OP.NOT
    · rw [if_pos hv]
      simp only [Bool.and_eq_true]
      exact ⟨hl, hr⟩
    · rw [if_neg hv]
      simp only [Bool.and_eq_true]
      constructor
      · match l, hl with
        | none, _ => rfl
        | some a, ha => exact impFree_noImp a ha
      · match r, hr with
        | none, _ => rfl
        | some b, hb => exact impFree_noImp b hb

/-- On well-formed propositional input, `nnf` never leaves an implication
below a negation. -/
theorem noImp_nnf_aux : ∀ (n : Nat) (phi : Node),
    wsize phi ≤ n → istProp phi = true → noImpUnderNot (nnf phi) = true := by
  intro n
  induction n with
  | zero =>
    intro phi h _
    exact absurd h (by have := wsize_pos phi; omega)
  | succ n ih =>
    intro phi hsz hp
    obtain ⟨v, l, r⟩ := phi
    rcases istProp_cases v l r hp with ⟨hv, hl, c, hr, hc⟩
      | ⟨hv, a, b, hl, hr, ha, hb⟩ | ⟨hlit, hl, hr⟩
    · subst hv hl hr
      exact impFree_noImp _ (impFree_nnf_not c hc)
    · subst hl hr
      have hvnot : v ≠ OP.NOT := by
        rcases hv with h | h | h <;> (subst h; decide)
      have hlitf : (Node.mk v (some a) (some b)).is_literal = false :=
        is_literal_val_false v (some a) (some b) (by tauto)
      rw [nnf_bin v a b hvnot hlitf]
      unfold noImpUnderNot
      rw [if_neg hvnot]
      simp only [Bool.and_eq_true]
      have hwa := wsize_pos a
      have hwb := wsize_pos b
      have hwx := wsize_mk v (some a) (some b)
      simp only [osize_some] at hwx
      have hwite : (1 : Nat) ≤ if v = OP.IMPLIES then 2 else 1 := by split <;> omega
      exact ⟨ih a (by omega) ha, ih b (by omega) hb⟩
    · subst hl hr
      rw [nnf_lit v none none hlit]
      unfold noImpUnderNot
      rw [if_neg (is_literal_spec v none none hlit).1]
      simp

theorem noImp_nnf (phi : Node) (h : istProp phi = true) :
    noImpUnderNot (nnf phi) = true :=
  noImp_nnf_aux (wsize phi) phi le_rfl h

/-! ### A weight that every normalizer rule strictly decreases -/

/-- Weight of a node: implication nodes weigh `2·wt l + 2·wt r + 3`, all
others `1` plus their children, chosen so that `wt (nnf (¬x)) ≤ 2·wt x + 1`
and hence every replacement a rule adds weighs strictly less than the
pending formula it consumes. -/
def wt : Node → Nat
  | .mk v l r =>
    if v = OP.IMPLIES then
      2 * (match l with | none => 0 | some a => wt a)
        + 2 * (match r with | none => 0 | some b => wt b) + 3
    else
      1 + (match l with | none => 0 | some a => wt a)
        + (match r with | none => 0 | some b => wt b)

/-- Weight of an optional child. -/
def owt : Option Node → Nat
  | none => 0
  | some a => wt a

@[simp] theorem owt_none : owt none = 0 := rfl

@[simp] theorem owt_some (a : Node) : owt (some a) = wt a := rfl

theorem wt_mk (v : String) (l r : Option Node) :
    wt (Node.mk v l r)
      = if v = OP.IMPLIES then 2 * owt l + 2 * owt r + 3 else 1 + owt l + owt r := by
  cases l <;> cases r <;> (unfold wt; simp [owt])

theorem wt_pos (n : Node) : 1 ≤ wt n := by
  cases n with
  | mk v l r =>
    rw [wt_mk]
    split <;> omega

theorem wt_mk_notimp (v : String) (l r : Option Node) (h : v ≠ OP.IMPLIES) :
    wt (Node.mk v l r) = 1 + owt l + owt r := by
  rw [wt_mk, if_neg h]

theorem wt_mk_imp (l r : Option Node) :
    wt (Node.mk OP.IMPLIES l r) = 2 * owt l + 2 * owt r + 3 := by
  rw [wt_mk, if_pos rfl]

/-- The key bound: normalizing a negation at most doubles the weight (plus
one), for every node whatsoever. -/
theorem wt_nnf_not : ∀ (n : Nat) (lopt : Option Node) (x : Node), wsize x ≤ n →
    wt (nnf (Node.mk OP.NOT lopt (some x))) ≤ owt lopt + 2 * wt x + 1 := by
  intro n
  induction n with
  | zero =>
    intro lopt x h
    exact absurd h (by have := wsize_pos x; omega)
  | succ n ih =>
    intro lopt x hsz
    obtain ⟨xv, xl, xr⟩ := x
    have hwx := wt_mk xv xl xr
    have hwsx := wsize_mk xv xl xr
    by_cases hlit : (Node.mk xv xl xr).is_literal = true
    · by_cases ht : xv = LIT.TRUE
      · subst ht
        rw [nnf_not_true lopt xl xr]
        rw [wt_mk_notimp LIT.FALSE none none (by decide)]
        have := wt_pos (Node.mk LIT.TRUE xl xr)
        simp only [owt_none]
        omega
      · by_cases hf : xv = LIT.FALSE
        · subst hf
          rw [nnf_not_false lopt xl xr]
          rw [wt_mk_notimp LIT.TRUE none none (by decide)]
          have := wt_pos (Node.mk LIT.FALSE xl xr)
          simp only [owt_none]
          omega
        · rw [nnf_not_atom lopt (Node.mk xv xl xr) hlit (by simpa using ht) (by simpa using hf)]
          rw [wt_mk_notimp OP.NOT lopt (some (Node.mk xv xl xr)) (by decide)]
          have := wt_pos (Node.mk xv xl xr)
          simp only [owt_some]
          omega
    · by_cases hxv : xv = OP.NOT
      · subst hxv
        rw [if_neg (by decide)] at hwx hwsx
        cases xr with
        | none =>
          rw [nnf_not_not_noner lopt xl]
          rw [wt_mk_notimp OP.NOT lopt (some (Node.mk OP.NOT xl none)) (by decide)]
          have := wt_pos (Node.mk OP.NOT xl none)
          simp only [owt_some]
          omega
        | some c =>
          simp only [osize_some] at hwsx
          simp only [owt_some] at hwx
          by_cases hcv : c.val = OP.NOT
          · rw [nnf_tripleneg lopt xl c hcv]
            obtain ⟨cv, cl, cr⟩ := c
            simp only [Node.val_mk] at hcv
            subst hcv
            have hwc := wt_mk_notimp OP.NOT cl cr (by decide)
            have hwsc := wsize_mk OP.NOT cl cr
            rw [if_neg (by decide)] at hwsc
            cases cr with
            | none =>
              rw [nnf_not_noner]
              simp only [owt_none] at hwc
              omega
            | some d =>
              simp only [osize_some] at hwsc
              have hb := ih cl d (by omega)
              simp only [owt_some] at hwc hb
              have hposd := wt_pos d
              omega
          · rw [nnf_dblneg lopt xl c hcv]
            have e0 := wt_mk_notimp OP.NOT lopt
              (some (nnf (Node.mk OP.NOT xl (some c)))) (by decide)
            have hb := ih xl c (by omega)
            have e1 := wt_mk_notimp OP.NOT xl (some c) (by decide)
            simp only [owt_some] at e0 e1 hb
            have hposc := wt_pos c
            omega
      · have hIl : wt (nnf (Node.mk OP.NOT none xl)) ≤ 2 * owt xl + 1 := by
          cases xl with
          | none =>
            rw [nnf_not_noner]
            rw [wt_mk_notimp OP.NOT none none (by decide)]
            simp
          | some a =>
            have hsa : wsize a ≤ n := by
              have := wsize_ge (Node.mk xv (some a) xr)
              simp only [Node.l_mk, Node.r_mk, osize_some] at this
              omega
            simpa using ih none a hsa
        have hIr : wt (nnf (Node.mk OP.NOT none xr)) ≤ 2 * owt xr + 1 := by
          cases xr with
          | none =>
            rw [nnf_not_noner]
            rw [wt_mk_notimp OP.NOT none none (by decide)]
            simp
          | some b =>
            have hsb : wsize b ≤ n := by
              have := wsize_ge (Node.mk xv xl (some b))
              simp only [Node.l_mk, Node.r_mk, osize_some] at this
              omega
            simpa using ih none b hsb
        by_cases hand : xv = OP.AND
        · subst hand
          rw [nnf_not_and lopt xl xr]
          rw [if_neg (by decide)] at hwx hwsx
          rw [wt_mk_notimp OP.OR _ _ (by decide)]
          simp only [owt_some]
          omega
        · by_cases hor : xv = OP.OR
          · subst hor
            rw [nnf_not_or lopt xl xr]
            rw [if_neg (by decide)] at hwx hwsx
            rw [wt_mk_notimp OP.AND _ _ (by decide)]
            simp only [owt_some]
            omega
          · by_cases himp : xv = OP.IMPLIES
            · subst himp
              rw [nnf_not_imp lopt xl xr]
              rw [if_pos rfl] at hwx hwsx
              have h1 : wt (nnf (Node.mk OP.NOT none (some (Node.mk OP.NOT none xl))))
                  ≤ 2 * (1 + owt xl) + 1 := by
                have harg := ih none (Node.mk OP.NOT none xl)
                  (by rw [wsize_not]; omega)
                rw [wt_mk_notimp OP.NOT none xl (by decide)] at harg
                simpa using harg
              rw [wt_mk_notimp OP.AND _ _ (by decide)]
              simp only [owt_some]
              omega
            · rw [nnf_not_quant lopt (Node.mk xv xl xr)
                (by rw [Bool.eq_false_iff]; exact hlit)
                (by simpa using hxv) (by simpa using hand) (by simpa using hor)
                (by simpa using himp)]
              rw [wt_mk_notimp OP.NOT lopt (some (Node.mk xv xl xr)) (by decide)]
              have := wt_pos (Node.mk xv xl xr)
              simp only [owt_some]
              omega

/-! ### Weight sums over rule slots -/

/-- Total weight of a list of pending formulas. -/
def wtSum (l : List Node) : Nat := (l.map wt).sum

/-- The measure a rule application strictly decreases: total weight of the
two todo slots of a partial rule. -/
def ruleWt (f : RuleT) : Nat := wtSum f.2.1 + wtSum f.2.2.2

theorem wtSum_nil : wtSum [] = 0 := rfl

theorem wtSum_cons (x : Node) (l : List Node) : wtSum (x :: l) = wt x + wtSum l := by
  simp [wtSum]

theorem wtSum_single (x : Node) : wtSum [x] = wt x := by
  simp [wtSum]

theorem wtSum_pair (x y : Node) : wtSum [x, y] = wt x + wt y := by
  simp [wtSum]

theorem wtSum_append (l1 l2 : List Node) : wtSum (l1 ++ l2) = wtSum l1 + wtSum l2 := by
  simp [wtSum]

theorem wtSum_erase_add (a : Node) (l : List Node) (h : a ∈ l) :
    wtSum (l.erase a) + wt a = wtSum l := by
  have hperm : List.Perm l (a :: l.erase a) := List.perm_cons_erase h
  have : wtSum l = wtSum (a :: l.erase a) := by
    unfold wtSum
    exact (hperm.map wt).sum_eq
  rw [this, wtSum_cons]
  omega

theorem wtSum_pos (l : List Node) (h : l ≠ []) : 1 ≤ wtSum l := by
  cases l with
  | nil => exact absurd rfl h
  | cons x xs =>
    rw [wtSum_cons]
    have := wt_pos x
    omega

theorem wtSum_union_le (l s : List Node) : wtSum (union l s) ≤ wtSum l + wtSum s := by
  induction s generalizing l with
  | nil => simp [union, wtSum_nil]
  | cons x xs ih =>
    unfold union
    rw [List.foldl_cons]
    have step : wtSum (if x ∈ l then l else l ++ [x]) ≤ wtSum l + wt x := by
      split
      · omega
      · rw [wtSum_append, wtSum_single]
    calc wtSum (List.foldl (fun acc y => if y ∈ acc then acc else acc ++ [y])
            (if x ∈ l then l else l ++ [x]) xs)
        ≤ wtSum (if x ∈ l then l else l ++ [x]) + wtSum xs := ih _
      _ ≤ wtSum l + wt x + wtSum xs := by omega
      _ = wtSum l + wtSum (x :: xs) := by rw [wtSum_cons]; omega

theorem diff_single (l : List Node) (a : Node) : difference l [a] = l.erase a := by
  simp [difference]

/-! ### Every rule strictly decreases `ruleWt` and yields at most 3 rules -/

theorem L1_decr (f : RuleT) :
    (∀ g ∈ (L1 f).2, ruleWt g < ruleWt f) ∧ (L1 f).2.length ≤ 3 := by
  unfold L1
  cases hfind : f.2.1.find? (fun a => a.val == LIT.FALSE) <;> simp

theorem L2_decr (f : RuleT) :
    (∀ g ∈ (L2 f).2, ruleWt g < ruleWt f) ∧ (L2 f).2.length ≤ 3 := by
  unfold L2
  cases hfind : f.2.1.find? (fun a => a.val == LIT.TRUE) with
  | none => simp
  | some a =>
    have hmem := List.mem_of_find?_eq_some hfind
    simp only [List.mem_singleton, List.length_singleton]
    refine ⟨fun g hg => ?_, by omega⟩
    subst hg
    unfold ruleWt
    simp only [diff_single]
    have h1 := wtSum_erase_add a f.2.1 hmem
    have h2 := wt_pos a
    omega

theorem L3_decr (f : RuleT) :
    (∀ g ∈ (L3 f).2, ruleWt g < ruleWt f) ∧ (L3 f).2.length ≤ 3 := by
  unfold L3
  cases hfind : f.2.1.find? (fun a => a.is_literal || ((a.val == OP.NOT) && rIsLiteral a)) with
  | none => simp
  | some a =>
    have hmem := List.mem_of_find?_eq_some hfind
    simp only [List.mem_singleton, List.length_singleton]
    refine ⟨fun g hg => ?_, by omega⟩
    subst hg
    unfold ruleWt
    simp only [diff_single]
    have h1 := wtSum_erase_add a f.2.1 hmem
    have h2 := wt_pos a
    omega

theorem L4_decr (f : RuleT) :
    (∀ g ∈ (L4 f).2, ruleWt g < ruleWt f) ∧ (L4 f).2.length ≤ 3 := by
  unfold L4
  cases hfind : f.2.1.find? (fun a => (a.val == OP.NOT) && rIsNot a) with
  | none => simp
  | some a =>
    have hmem := List.mem_of_find?_eq_some hfind
    have hpred := List.find?_some hfind
    simp only [Bool.and_eq_true, beq_iff_eq] at hpred
    obtain ⟨av, al, ar2⟩ := a
    simp only [Node.val_mk, Node.r_mk] at hpred ⊢
    cases ar2 with
    | none => simp
    | some ar =>
      simp only [List.mem_singleton, List.length_singleton]
      refine ⟨fun g hg => ?_, by omega⟩
      subst hg
      unfold ruleWt
      simp only [diff_single]
      have h1 := wtSum_erase_add (Node.mk av al (some ar)) f.2.1 hmem
      have h2 := wtSum_union_le f.2.2.2 [ar]
      rw [wtSum_single] at h2
      have h3 : wt ar + 1 ≤ wt (Node.mk av al (some ar)) := by
        rw [wt_mk_notimp av al (some ar) (by rw [hpred.1]; decide)]
        simp only [owt_some]
        omega
      omega

theorem L5_decr (f : RuleT) :
    (∀ g ∈ (L5 f).2, ruleWt g < ruleWt f) ∧ (L5 f).2.length ≤ 3 := by
  unfold L5
  cases hfind : f.2.1.find? (fun a => a.val == OP.AND) with
  | none => simp
  | some a =>
    have hmem := List.mem_of_find?_eq_some hfind
    have hpred := List.find?_some hfind
    simp only [beq_iff_eq] at hpred
    obtain ⟨av, al2, ar2⟩ := a
    simp only [Node.val_mk, Node.l_mk, Node.r_mk] at hpred ⊢
    cases al2 with
    | none => simp
    | some al =>
      cases ar2 with
      | none => simp
      | some ar =>
        simp only [List.mem_singleton, List.length_singleton]
        refine ⟨fun g hg => ?_, by omega⟩
        subst hg
        unfold ruleWt
        simp only [diff_single]
        have h1 := wtSum_erase_add (Node.mk av (some al) (some ar)) f.2.1 hmem
        have h2 := wtSum_union_le (f.2.1.erase (Node.mk av (some al) (some ar))) [al, ar]
        rw [wtSum_pair] at h2
        have h3 : wt al + wt ar + 1 ≤ wt (Node.mk av (some al) (some ar)) := by
          rw [wt_mk_notimp av (some al) (some ar) (by rw [hpred]; decide)]
          simp only [owt_some]
          omega
        omega

theorem L6_decr (f : RuleT) :
    (∀ g ∈ (L6 f).2, ruleWt g < ruleWt f) ∧ (L6 f).2.length ≤ 3 := by
  unfold L6
  cases hfind : f.2.1.find? (fun a => a.val == OP.OR) with
  | none => simp
  | some a =>
    have hmem := List.mem_of_find?_eq_some hfind
    have hpred := List.find?_some hfind
    simp only [beq_iff_eq] at hpred
    obtain ⟨av, al2, ar2⟩ := a
    simp only [Node.val_mk, Node.l_mk, Node.r_mk] at hpred ⊢
    cases al2 with
    | none => simp
    | some al =>
      cases ar2 with
      | none => simp
      | some ar =>
        have h1 := wtSum_erase_add (Node.mk av (some al) (some ar)) f.2.1 hmem
        have hwa : wt al + 1 ≤ wt (Node.mk av (some al) (some ar))
            ∧ wt ar + 1 ≤ wt (Node.mk av (some al) (some ar)) := by
          rw [wt_mk_notimp av (some al) (some ar) (by rw [hpred]; decide)]
          simp only [owt_some]
          have := wt_pos al
          have := wt_pos ar
          omega
        constructor
        · intro g hg
          simp only [List.mem_cons, List.mem_singleton, List.not_mem_nil, or_false] at hg
          rcases hg with hg | hg
          · subst hg
            unfold ruleWt
            simp only [diff_single]
            have h2 := wtSum_union_le (f.2.1.erase (Node.mk av (some al) (some ar))) [al]
            rw [wtSum_single] at h2
            omega
          · subst hg
            unfold ruleWt
            simp only [diff_single]
            have h2 := wtSum_union_le (f.2.1.erase (Node.mk av (some al) (some ar))) [ar]
            rw [wtSum_single] at h2
            omega
        · simp

theorem L7_decr (f : RuleT) :
    (∀ g ∈ (L7 f).2, ruleWt g < ruleWt f) ∧ (L7 f).2.length ≤ 3 := by
  unfold L7
  cases hfind : f.2.1.find? (fun a => a.val == OP.IMPLIES) with
  | none => simp
  | some a =>
    have hmem := List.mem_of_find?_eq_some hfind
    have hpred := List.find?_some hfind
    simp only [beq_iff_eq] at hpred
    obtain ⟨av, al2, ar2⟩ := a
    simp only [Node.val_mk, Node.l_mk, Node.r_mk] at hpred ⊢
    subst hpred
    cases al2 with
    | none => simp
    | some al =>
      cases ar2 with
      | none => simp
      | some ar =>
        have hwa : wt (Node.mk OP.IMPLIES (some al) (some ar))
            = 2 * wt al + 2 * wt ar + 3 := by
          rw [wt_mk_imp]
          simp
        have h1 := wtSum_erase_add (Node.mk OP.IMPLIES (some al) (some ar)) f.2.1 hmem
        have hx : wt (nnf (Node.mk OP.NOT none (some al))) ≤ 2 * wt al + 1 := by
          have := wt_nnf_not (wsize al) none al le_rfl
          simpa using this
        have hz : wt (nnf (Node.mk OP.NOT none (some ar))) ≤ 2 * wt ar + 1 := by
          have := wt_nnf_not (wsize ar) none ar le_rfl
          simpa using this
        have hpal := wt_pos al
        have hpar := wt_pos ar
        constructor
        · intro g hg
          simp only [List.mem_cons, List.mem_singleton, List.not_mem_nil, or_false] at hg
          rcases hg with hg | hg | hg
          · subst hg
            unfold ruleWt
            simp only [diff_single]
            have h2 := wtSum_union_le
              (f.2.1.erase (Node.mk OP.IMPLIES (some al) (some ar)))
              [nnf (Node.mk OP.NOT none (some al))]
            rw [wtSum_single] at h2
            omega
          · subst hg
            unfold ruleWt
            simp only [diff_single]
            have h2 := wtSum_union_le
              (f.2.1.erase (Node.mk OP.IMPLIES (some al) (some ar))) [ar]
            rw [wtSum_single] at h2
            omega
          · subst hg
            unfold ruleWt
            simp only [diff_single]
            have h2 := wtSum_union_le f.2.2.2
              [al, nnf (Node.mk OP.NOT none (some ar))]
            rw [wtSum_pair] at h2
            omega
        · simp

theorem R1_decr (f : RuleT) :
    (∀ g ∈ (R1 f).2, ruleWt g < ruleWt f) ∧ (R1 f).2.length ≤ 3 := by
  unfold R1
  cases hfind : f.2.2.2.find? (fun b => b.val == LIT.TRUE) <;> simp

theorem R2_decr (f : RuleT) :
    (∀ g ∈ (R2 f).2, ruleWt g < ruleWt f) ∧ (R2 f).2.length ≤ 3 := by
  unfold R2
  cases hfind : f.2.2.2.find? (fun b => b.val == LIT.FALSE) with
  | none => simp
  | some b =>
    have hmem := List.mem_of_find?_eq_some hfind
    simp only [List.mem_singleton, List.length_singleton]
    refine ⟨fun g hg => ?_, by omega⟩
    subst hg
    unfold ruleWt
    simp only [diff_single]
    have h1 := wtSum_erase_add b f.2.2.2 hmem
    have h2 := wt_pos b
    omega

theorem R3_decr (f : RuleT) :
    (∀ g ∈ (R3 f).2, ruleWt g < ruleWt f) ∧ (R3 f).2.length ≤ 3 := by
  unfold R3
  cases hfind : f.2.2.2.find? (fun b => b.is_literal || ((b.val == OP.NOT) && rIsLiteral b)) with
  | none => simp
  | some b =>
    have hmem := List.mem_of_find?_eq_some hfind
    simp only [List.mem_singleton, List.length_singleton]
    refine ⟨fun g hg => ?_, by omega⟩
    subst hg
    unfold ruleWt
    simp only [diff_single]
    have h1 := wtSum_erase_add b f.2.2.2 hmem
    have h2 := wt_pos b
    omega

theorem R4_decr (f : RuleT) :
    (∀ g ∈ (R4 f).2, ruleWt g < ruleWt f) ∧ (R4 f).2.length ≤ 3 := by
  unfold R4
  cases hfind : f.2.2.2.find? (fun b => (b.val == OP.NOT) && rIsNot b) with
  | none => simp
  | some b =>
    have hmem := List.mem_of_find?_eq_some hfind
    have hpred := List.find?_some hfind
    simp only [Bool.and_eq_true, beq_iff_eq] at hpred
    obtain ⟨bv, bl, br2⟩ := b
    simp only [Node.val_mk, Node.r_mk] at hpred ⊢
    cases br2 with
    | none => simp
    | some br =>
      simp only [List.mem_singleton, List.length_singleton]
      refine ⟨fun g hg => ?_, by omega⟩
      subst hg
      unfold ruleWt
      simp only [diff_single]
      have h1 := wtSum_erase_add (Node.mk bv bl (some br)) f.2.2.2 hmem
      have h2 := wtSum_union_le f.2.1 [br]
      rw [wtSum_single] at h2
      have h3 : wt br + 1 ≤ wt (Node.mk bv bl (some br)) := by
        rw [wt_mk_notimp bv bl (some br) (by rw [hpred.1]; decide)]
        simp only [owt_some]
        omega
      omega

theorem R5_decr (f : RuleT) :
    (∀ g ∈ (R5 f).2, ruleWt g < ruleWt f) ∧ (R5 f).2.length ≤ 3 := by
  unfold R5
  cases hfind : f.2.2.2.find? (fun b => b.val == OP.OR) with
  | none => simp
  | some b =>
    have hmem := List.mem_of_find?_eq_some hfind
    have hpred := List.find?_some hfind
    simp only [beq_iff_eq] at hpred
    obtain ⟨bv, bl2, br2⟩ := b
    simp only [Node.val_mk, Node.l_mk, Node.r_mk] at hpred ⊢
    cases bl2 with
    | none => simp
    | some bl =>
      cases br2 with
      | none => simp
      | some br =>
        simp only [List.mem_singleton, List.length_singleton]
        refine ⟨fun g hg => ?_, by omega⟩
        subst hg
        unfold ruleWt
        simp only [diff_single]
        have h1 := wtSum_erase_add (Node.mk bv (some bl) (some br)) f.2.2.2 hmem
        have h2 := wtSum_union_le (f.2.2.2.erase (Node.mk bv (some bl) (some br))) [bl, br]
        rw [wtSum_pair] at h2
        have h3 : wt bl + wt br + 1 ≤ wt (Node.mk bv (some bl) (some br)) := by
          rw [wt_mk_notimp bv (some bl) (some br) (by rw [hpred]; decide)]
          simp only [owt_some]
          omega
        omega

theorem R6_decr (f : RuleT) :
    (∀ g ∈ (R6 f).2, ruleWt g < ruleWt f) ∧ (R6 f).2.length ≤ 3 := by
  unfold R6
  cases hfind : f.2.2.2.find? (fun b => b.val == OP.AND) with
  | none => simp
  | some b =>
    have hmem := List.mem_of_find?_eq_some hfind
    have hpred := List.find?_some hfind
    simp only [beq_iff_eq] at hpred
    obtain ⟨bv, bl2, br2⟩ := b
    simp only [Node.val_mk, Node.l_mk, Node.r_mk] at hpred ⊢
    cases bl2 with
    | none => simp
    | some bl =>
      cases br2 with
      | none => simp
      | some br =>
        have h1 := wtSum_erase_add (Node.mk bv (some bl) (some br)) f.2.2.2 hmem
        have hwb : wt bl + 1 ≤ wt (Node.mk bv (some bl) (some br))
            ∧ wt br + 1 ≤ wt (Node.mk bv (some bl) (some br)) := by
          rw [wt_mk_notimp bv (some bl) (some br) (by rw [hpred]; decide)]
          simp only [owt_some]
          have := wt_pos bl
          have := wt_pos br
          omega
        constructor
        · intro g hg
          simp only [List.mem_cons, List.mem_singleton, List.not_mem_nil, or_false] at hg
          rcases hg with hg | hg
          · subst hg
            unfold ruleWt
            simp only [diff_single]
            have h2 := wtSum_union_le
              (f.2.2.2.erase (Node.mk bv (some bl) (some br))) [bl]
            rw [wtSum_single] at h2
            omega
          · subst hg
            unfold ruleWt
            simp only [diff_single]
            have h2 := wtSum_union_le
              (f.2.2.2.erase (Node.mk bv (some bl) (some br))) [br]
            rw [wtSum_single] at h2
            omega
        · simp

theorem R7_simp_decr (f : RuleT) :
    (∀ g ∈ (R7_simp f).2, ruleWt g < ruleWt f) ∧ (R7_simp f).2.length ≤ 3 := by
  unfold R7_simp
  split
  next b hfind =>
    have hmem := List.mem_of_find?_eq_some hfind
    have hpred := List.find?_some hfind
    simp only [beq_iff_eq] at hpred
    split
    next bl hbl =>
      split
      next br hbr =>
        have hwb : wt b = 2 * wt bl + 2 * wt br + 3 := by
          obtain ⟨bv, bl2, br2⟩ := b
          simp only [Node.val_mk] at hpred
          simp only [Node.l_mk] at hbl
          simp only [Node.r_mk] at hbr
          subst hpred hbl hbr
          rw [wt_mk_imp]
          simp
        have h1 := wtSum_erase_add b f.2.2.2 hmem
        have hv : wt (nnf (Node.mk OP.NOT none (some br))) ≤ 2 * wt br + 1 := by
          have := wt_nnf_not (wsize br) none br le_rfl
          simpa using this
        have hw : wt (nnf (Node.mk OP.NOT none (some bl))) ≤ 2 * wt bl + 1 := by
          have := wt_nnf_not (wsize bl) none bl le_rfl
          simpa using this
        have hpbl := wt_pos bl
        have hpbr := wt_pos br
        have hg1 : ruleWt (f.1, union f.2.1 [bl], f.2.2.1,
            union (difference f.2.2.2 [b]) [br]) < ruleWt f := by
          unfold ruleWt
          simp only [diff_single]
          have h2 := wtSum_union_le f.2.1 [bl]
          have h3 := wtSum_union_le (f.2.2.2.erase b) [br]
          rw [wtSum_single] at h2 h3
          omega
        split
        · simp only [List.mem_singleton, List.length_singleton]
          exact ⟨fun g hg => by subst hg; exact hg1, by omega⟩
        · constructor
          · intro g hg
            simp only [List.mem_cons, List.mem_singleton, List.not_mem_nil, or_false] at hg
            rcases hg with hg | hg
            · subst hg; exact hg1
            · subst hg
              unfold ruleWt
              simp only [diff_single]
              have h2 := wtSum_union_le f.2.1 [nnf (Node.mk OP.NOT none (some br))]
              have h3 := wtSum_union_le (f.2.2.2.erase b)
                [nnf (Node.mk OP.NOT none (some bl))]
              rw [wtSum_single] at h2 h3
              omega
          · simp
      next => simp
    next => simp
  next hfind => simp

/-! ### Termination of the worklist loop -/

theorem firstApplicable_decr (rules : List (RuleT → Bool × List RuleT)) (f : RuleT)
    (h : ∀ rule ∈ rules,
      (∀ g ∈ (rule f).2, ruleWt g < ruleWt f) ∧ (rule f).2.length ≤ 3) :
    (∀ g ∈ firstApplicable rules f, ruleWt g < ruleWt f)
      ∧ (firstApplicable rules f).length ≤ 3 := by
  induction rules with
  | nil => simp [firstApplicable]
  | cons rule rest ih =>
    unfold firstApplicable
    split
    · exact h rule (List.mem_cons_self rule rest)
    · exact ih (fun r hr => h r (List.mem_cons_of_mem _ hr))

theorem apply_substitution_decr (f : RuleT) (side : String) :
    (∀ g ∈ apply_substitution f side, ruleWt g < ruleWt f)
      ∧ (apply_substitution f side).length ≤ 3 := by
  unfold apply_substitution
  split
  · apply firstApplicable_decr
    intro rule hr
    simp only [List.mem_cons, List.not_mem_nil, or_false] at hr
    rcases hr with rfl | rfl | rfl | rfl | rfl | rfl | rfl
    exacts [L1_decr f, L2_decr f, L3_decr f, L4_decr f, L5_decr f, L6_decr f, L7_decr f]
  · apply firstApplicable_decr
    intro rule hr
    simp only [List.mem_cons, List.not_mem_nil, or_false] at hr
    rcases hr with rfl | rfl | rfl | rfl | rfl | rfl | rfl
    exacts [R1_decr f, R2_decr f, R3_decr f, R4_decr f, R5_decr f, R6_decr f, R7_simp_decr f]

/-- Potential of a worklist: each rule contributes `4 ^ ruleWt`; every loop
iteration strictly decreases it, because a popped rule of weight `W` is
replaced by at most 3 rules of weight `< W` and `3·4^(W-1) < 4^W`. -/
def phiWl (sn : List RuleT) : Nat := (sn.map (fun f => 4 ^ ruleWt f)).sum

theorem phiWl_append (a b : List RuleT) : phiWl (a ++ b) = phiWl a + phiWl b := by
  simp [phiWl]

theorem phiWl_single (f : RuleT) : phiWl [f] = 4 ^ ruleWt f := by
  simp [phiWl]

theorem phiWl_bound (gs : List RuleT) (W : Nat) (hlt : ∀ g ∈ gs, ruleWt g < W) :
    phiWl gs ≤ gs.length * 4 ^ (W - 1) := by
  induction gs with
  | nil => simp [phiWl]
  | cons g rest ih =>
    have hg := hlt g (List.mem_cons_self g rest)
    have h1 : 4 ^ ruleWt g ≤ 4 ^ (W - 1) :=
      Nat.pow_le_pow_right (by omega) (by omega)
    have h2 := ih (fun x hx => hlt x (List.mem_cons_of_mem _ hx))
    have : phiWl (g :: rest) = 4 ^ ruleWt g + phiWl rest := by simp [phiWl]
    rw [this, List.length_cons]
    calc 4 ^ ruleWt g + phiWl rest ≤ 4 ^ (W - 1) + rest.length * 4 ^ (W - 1) := by omega
      _ = (rest.length + 1) * 4 ^ (W - 1) := by ring

/-- One unfolding of the worklist loop at a cons cell. -/
theorem normalizeF_cons (fuel : Nat) (st : List RuleT) (s0 : RuleT) (srest : List RuleT) :
    normalizeF (fuel + 1) st (s0 :: srest) =
      (let f := (s0 :: srest).getLast (List.cons_ne_nil s0 srest)
       let sn1 := (s0 :: srest).dropLast
       let newformulas :=
        if f.2.2.2.length ≠ 0 then apply_substitution f "right"
        else if f.2.1.length ≠ 0 then apply_substitution f "left"
        else [f]
       if newformulas = [f] then normalizeF fuel (st ++ newformulas) sn1
       else normalizeF fuel st (sn1 ++ newformulas)) := rfl

/-- One unfolding of the worklist loop at a non-empty list written as
`sn1 ++ [f]` (the popped element is the last one). -/
theorem normalizeF_concat (fuel : Nat) (st sn1 : List RuleT) (f : RuleT) :
    normalizeF (fuel + 1) st (sn1 ++ [f]) =
      (let newformulas :=
        if f.2.2.2.length ≠ 0 then apply_substitution f "right"
        else if f.2.1.length ≠ 0 then apply_substitution f "left"
        else [f]
       if newformulas = [f] then normalizeF fuel (st ++ newformulas) sn1
       else normalizeF fuel st (sn1 ++ newformulas)) := by
  cases sn1 with
  | nil =>
    simp only [List.nil_append]
    rw [normalizeF_cons]
    rfl
  | cons s ss =>
    show normalizeF (fuel + 1) st (s :: (ss ++ [f])) = _
    rw [normalizeF_cons]
    have h1 : (s :: (ss ++ [f])).getLast (List.cons_ne_nil s (ss ++ [f])) = f := by
      have := List.getLast_append_singleton (a := f) (s :: ss)
      simpa using this
    have h2 : (s :: (ss ++ [f])).dropLast = s :: ss := by
      show ((s :: ss) ++ [f]).dropLast = s :: ss
      exact List.dropLast_concat
    rw [h1, h2]

theorem normalizeF_term_aux : ∀ (k : Nat) (sn : List RuleT), phiWl sn ≤ k →
    ∀ st, ∃ fuel res, normalizeF fuel st sn = some res := by
  intro k
  induction k with
  | zero =>
    intro sn hphi st
    cases sn with
    | nil => exact ⟨0, st, rfl⟩
    | cons s ss =>
      exfalso
      have : 0 < 4 ^ ruleWt s := pow_pos (by omega) _
      have hp : phiWl (s :: ss) = 4 ^ ruleWt s + phiWl ss := by simp [phiWl]
      omega
  | succ k ih =>
    intro sn hphi st
    rcases List.eq_nil_or_concat' sn with rfl | ⟨sn1, f, rfl⟩
    · exact ⟨0, st, rfl⟩
    · have hphiapp : phiWl (sn1 ++ [f]) = phiWl sn1 + 4 ^ ruleWt f := by
        rw [phiWl_append, phiWl_single]
      have hposf : 0 < 4 ^ ruleWt f := pow_pos (by omega) _
      set newformulas :=
        (if f.2.2.2.length ≠ 0 then apply_substitution f "right"
         else if f.2.1.length ≠ 0 then apply_substitution f "left"
         else [f]) with hnf
      by_cases hif : newformulas = [f]
      · obtain ⟨fuel0, res, hres⟩ := ih sn1 (by omega) (st ++ newformulas)
        refine ⟨fuel0 + 1, res, ?_⟩
        rw [normalizeF_concat]
        simp only [← hnf]
        rw [if_pos hif]
        exact hres
      · have hW : 1 ≤ ruleWt f := by
          by_cases h3 : f.2.2.2.length ≠ 0
          · have : f.2.2.2 ≠ [] := by
              intro hh
              rw [hh] at h3
              exact h3 rfl
            have := wtSum_pos f.2.2.2 this
            unfold ruleWt
            omega
          · by_cases h1 : f.2.1.length ≠ 0
            · have : f.2.1 ≠ [] := by
                intro hh
                rw [hh] at h1
                exact h1 rfl
              have := wtSum_pos f.2.1 this
              unfold ruleWt
              omega
            · exfalso
              apply hif
              rw [hnf, if_neg h3, if_neg h1]
        have happ : newformulas = apply_substitution f "right"
            ∨ newformulas = apply_substitution f "left" := by
          rw [hnf]
          by_cases h3 : f.2.2.2.length ≠ 0
          · left; rw [if_pos h3]
          · by_cases h1 : f.2.1.length ≠ 0
            · right; rw [if_neg h3, if_pos h1]
            · exfalso
              apply hif
              rw [hnf, if_neg h3, if_neg h1]
        have hdecr : (∀ g ∈ newformulas, ruleWt g < ruleWt f)
            ∧ newformulas.length ≤ 3 := by
          rcases happ with h | h <;> (rw [h]; exact apply_substitution_decr f _)
        have hphig : phiWl newformulas ≤ 3 * 4 ^ (ruleWt f - 1) := by
          have := phiWl_bound newformulas (ruleWt f) hdecr.1
          have hlen := hdecr.2
          have hmono : newformulas.length * 4 ^ (ruleWt f - 1)
              ≤ 3 * 4 ^ (ruleWt f - 1) := Nat.mul_le_mul hlen (le_refl _)
          omega
        have hpow : 3 * 4 ^ (ruleWt f - 1) < 4 ^ ruleWt f := by
          obtain ⟨w, hw⟩ : ∃ w, ruleWt f = w + 1 := ⟨ruleWt f - 1, by omega⟩
          rw [hw]
          simp only [Nat.add_sub_cancel]
          have : 4 ^ (w + 1) = 4 ^ w * 4 := pow_succ 4 w
          have hp : 0 < 4 ^ w := pow_pos (by omega) _
          omega
        obtain ⟨fuel0, res, hres⟩ := ih (sn1 ++ newformulas)
          (by rw [phiWl_append]; omega) st
        refine ⟨fuel0 + 1, res, ?_⟩
        rw [normalizeF_concat]
        simp only [← hnf]
        rw [if_neg hif]
        exact hres

/-- The worklist loop of `normalize` terminates on every input: some fuel
suffices. -/
theorem normalizeF_terminates (st sn : List RuleT) :
    ∃ fuel res, normalizeF fuel st sn = some res :=
  normalizeF_term_aux (phiWl sn) sn le_rfl st

/-! ### A heap model of `nnf`, for the in-place mutation claims

Python `Node` objects are mutable and `nnf` assigns to `node.l` / `node.r` of
existing nodes.  To reason about what happens to the tree an argument points
to, the functions below replay `nnf` over an explicit heap: an address is an
index into a list of `(val, l, r)` records, `Node(...)` is allocation at the
end, and field assignment is `List.set`.  `nnfHeap` is fueled; the concrete
claims run it with ample fuel. -/

/-- A heap record: value string and optional child addresses. -/
abbrev HNode := String × Option Nat × Option Nat

abbrev Heap := List HNode

def hGet (h : Heap) (a : Nat) : HNode := h.getD a ("", none, none)

def hSet (h : Heap) (a : Nat) (n : HNode) : Heap := h.set a n

def hAlloc (h : Heap) (n : HNode) : Heap × Nat := (h ++ [n], h.length)

/-- The value test of `Node.is_literal`, on a bare value string. -/
def vIsLiteral (v : String) : Bool :=
  if (v = OP.NOT) ∨ (v = OP.IMPLIES) ∨ (v = OP.AND) ∨ (v = OP.OR)
      ∨ (v = OP.EXISTS) ∨ (v = OP.FORALL) then false else true

/-- `nnf` over the heap, following the source line by line; returns the new
heap and the address of the result.  Mutation points of the source
(`newnode.r = nnf(node.r)` with `newnode = node`, and the trailing
`newnode.l = nnf(newnode.l); newnode.r = nnf(newnode.r)`) become `hSet` on
the very node the argument points to. -/
def nnfHeap : Nat → Heap → Nat → Heap × Nat
  | 0, h, node => (h, node)
  | fuel + 1, h, node =>
    let nv := hGet h node
    if nv.1 = OP.NOT then
      match nv.2.2 with
      | none => (h, node)  -- source: AttributeError
      | some r =>
        let rv := hGet h r
        if vIsLiteral rv.1 then
          if rv.1 = LIT.TRUE then hAlloc h (LIT.FALSE, none, none)
          else if rv.1 = LIT.FALSE then hAlloc h (LIT.TRUE, none, none)
          else (h, node)
        else if rv.1 = OP.NOT then
          match rv.2.2 with
          | none => (h, node)  -- source: AttributeError
          | some rr =>
            if (hGet h rr).1 = OP.NOT then nnfHeap fuel h rr
            else
              -- newnode.r = nnf(node.r); return newnode — mutates the input
              let p := nnfHeap fuel h r
              (hSet p.1 node (nv.1, nv.2.1, some p.2), node)
        else if rv.1 = OP.AND ∨ rv.1 = OP.OR then
          let val := if rv.1 = OP.AND then OP.OR else OP.AND
          let q1 := hAlloc h (OP.NOT, none, rv.2.1)
          let q2 := hAlloc q1.1 (OP.NOT, none, rv.2.2)
          let q3 := hAlloc q2.1 (val, some q1.2, some q2.2)
          -- trailing recursion: newnode.l = nnf(newnode.l)
          let p1 := nnfHeap fuel q3.1 q1.2
          let h4 := hSet p1.1 q3.2 ((hGet p1.1 q3.2).1, some p1.2, (hGet p1.1 q3.2).2.2)
          -- newnode.r = nnf(newnode.r)
          let p2 := nnfHeap fuel h4 q2.2
          let h5 := hSet p2.1 q3.2 ((hGet p2.1 q3.2).1, (hGet p2.1 q3.2).2.1, some p2.2)
          (h5, q3.2)
        else if rv.1 = OP.IMPLIES then
          let q0 := hAlloc h (OP.NOT, none, rv.2.1)
          let q1 := hAlloc q0.1 (OP.NOT, none, some q0.2)
          let q2 := hAlloc q1.1 (OP.NOT, none, rv.2.2)
          let q3 := hAlloc q2.1 (OP.AND, some q1.2, some q2.2)
          let p1 := nnfHeap fuel q3.1 q1.2
          let h4 := hSet p1.1 q3.2 ((hGet p1.1 q3.2).1, some p1.2, (hGet p1.1 q3.2).2.2)
          let p2 := nnfHeap fuel h4 q2.2
          let h5 := hSet p2.1 q3.2 ((hGet p2.1 q3.2).1, (hGet p2.1 q3.2).2.1, some p2.2)
          (h5, q3.2)
        else (h, node)  -- Not over a quantifier: the source loops forever
    else if vIsLiteral nv.1 then (h, node)
    else
      -- newnode.l = nnf(newnode.l) — in-place mutation of the input node
      let h1 :=
        match nv.2.1 with
        | none => h  -- source: AttributeError on nnf(None)
        | some a =>
          let p := nnfHeap fuel h a
          hSet p.1 node ((hGet p.1 node).1, some p.2, (hGet p.1 node).2.2)
      -- newnode.r = nnf(newnode.r)
      let h2 :=
        match (hGet h1 node).2.2 with
        | none => h1
        | some b =>
          let p := nnfHeap fuel h1 b
          hSet p.1 node ((hGet p.1 node).1, (hGet p.1 node).2.1, some p.2)
      (h2, node)

/-- Read the (structural) tree rooted at an address. -/
def readTree : Nat → Heap → Nat → Node
  | 0, _, _ => Node.mk "" none none
  | fuel + 1, h, a =>
    let n := hGet h a
    Node.mk n.1
      (match n.2.1 with | none => none | some x => some (readTree fuel h x))
      (match n.2.2 with | none => none | some x => some (readTree fuel h x))

/-- The concrete heap for the mutation counterexample: address 5 holds
`And(Not(And(p, q)), r)`. -/
def mutHeap : Heap :=
  [("p", none, none), ("q", none, none), ("&", some 0, some 1),
   ("-", none, some 2), ("r", none, none), ("&", some 3, some 4)]

/-- Decidable equality on `Except`, so parser results can be computed on. -/
instance {e a : Type} [DecidableEq e] [DecidableEq a] : DecidableEq (Except e a) := fun x y =>
  match x, y with
  | .ok u, .ok v =>
    if h : u = v then isTrue (by rw [h]) else isFalse (by intro he; injection he; contradiction)
  | .error u, .error v =>
    if h : u = v then isTrue (by rw [h]) else isFalse (by intro he; injection he; contradiction)
  | .ok _, .error _ => isFalse (by intro he; injection he)
  | .error _, .ok _ => isFalse (by intro he; injection he)

/-! ### The measure named by the specification's termination argument -/

/-- Plain node count of a tree. -/
def nodeCount : Node → Nat
  | .mk _ l r =>
    1 + (match l with | none => 0 | some a => nodeCount a)
      + (match r with | none => 0 | some b => nodeCount b)

/-- Number of implication nodes in a tree. -/
def impNodes : Node → Nat
  | .mk v l r =>
    (if v = OP.IMPLIES then 1 else 0)
      + (match l with | none => 0 | some a => impNodes a)
      + (match r with | none => 0 | some b => impNodes b)

/-- Total node count of a list of pending formulas. -/
def sizeSum (l : List Node) : Nat := (l.map nodeCount).sum

/-- Total implication count of a list of pending formulas. -/
def impSum (l : List Node) : Nat := (l.map impNodes).sum

/-- Number of pending compound (non-literal) formulas in a list. -/
def compoundCount (l : List Node) : Nat := (l.filter (fun a => !a.is_literal)).length

/-- The lexicographic measure claimed by the spec: (total size of the
subformulas in `A_todo` and `C_todo`, count of pending implications, count of
pending compound terms). -/
def claimMeasure (f : RuleT) : Nat × Nat × Nat :=
  (sizeSum f.2.1 + sizeSum f.2.2.2,
   impSum f.2.1 + impSum f.2.2.2,
   compoundCount f.2.1 + compoundCount f.2.2.2)

/-- Strict lexicographic order on the measure triples. -/
def lexLt (m1 m2 : Nat × Nat × Nat) : Prop :=
  m1.1 < m2.1
    ∨ (m1.1 = m2.1 ∧ (m1.2.1 < m2.2.1 ∨ (m1.2.1 = m2.2.1 ∧ m1.2.2 < m2.2.2)))

instance (m1 m2 : Nat × Nat × Nat) : Decidable (lexLt m1 m2) := by
  unfold lexLt
  infer_instance

/-! ### Concrete nodes used by the claims -/

def pAtom : Node := Node.mk "p" none none

def qAtom : Node := Node.mk "q" none none

def rAtom : Node := Node.mk "r" none none

def sAtom : Node := Node.mk "s" none none

/-- `¬x`, as `nnf` builds it: `Node(OP.NOT, right=x)`. -/
def mkNot (x : Node) : Node := Node.mk OP.NOT none (some x)

/-- `¬¬(p ∧ q)`, the formula on which NNF idempotence and the NNF shape fail. -/
def dblNegAnd : Node :=
  mkNot (mkNot (Node.mk OP.AND (some pAtom) (some qAtom)))

/-- `p → p`, whose normalization is the single tautological rule `p > p`. -/
def pImpP : Node := Node.mk OP.IMPLIES (some pAtom) (some pAtom)

/-- The tree of the RPN input `r q p > >`, that is `r → (q → p)`. -/
def rqpTree : Node :=
  Node.mk OP.IMPLIES (some rAtom)
    (some (Node.mk OP.IMPLIES (some qAtom) (some pAtom)))

/-- `(p → q) → r`, the pending antecedent that makes L7 grow the todo size. -/
def impPQr : Node :=
  Node.mk OP.IMPLIES (some (Node.mk OP.IMPLIES (some pAtom) (some qAtom))) (some rAtom)

/-- The partial rule `([], [(p → q) → r], [s], [])` (it arises from the NNF
input `((p → q) → r) → s` after R3 moves `s` to `C_done`). -/
def f10 : RuleT := ([], [impPQr], [sAtom], [])

/-! ### The claims -/

/-- Claim C1, counterexample.  On `A_todo = [¬¬p]`, rule L4 adds `¬p` — the
node `a.r`, the singly negated form — to `C_todo`, not the operand `p` under
the double negation as the claim states: the two results differ. -/
theorem C1_cex :
    L4 ([], [mkNot (mkNot pAtom)], [], [])
      = (true, [([], [], [], [mkNot pAtom])])
    ∧ L4 ([], [mkNot (mkNot pAtom)], [], [])
      ≠ (true, [([], [], [], [pAtom])]) := by
  constructor
  · decide
  · decide

/-- Claim C1, amended: when the first doubly negated formula `¬¬x` of
`A_todo` is found, L4 removes it and adds the SINGLY negated `¬x` (the node
`a.r`) to `C_todo`; dually R4 removes `¬¬x` from `C_todo` and adds `¬x` to
`A_todo`.  (Stated with the matched formula at the head of its todo list.) -/
theorem C1_thm :
    ∀ (A T C D : List Node) (x : Node),
      L4 (A, mkNot (mkNot x) :: T, C, D)
        = (true, [(A, T, C, union D [mkNot x])])
      ∧ R4 (A, T, C, mkNot (mkNot x) :: D)
        = (true, [(A, union T [mkNot x], C, D)]) := by
  intro A T C D x
  have hpred : ((mkNot (mkNot x)).val == OP.NOT && rIsNot (mkNot (mkNot x))) = true := by
    simp [mkNot, rIsNot]
  have hfT : List.find? (fun a => a.val == OP.NOT && rIsNot a) (mkNot (mkNot x) :: T)
      = some (mkNot (mkNot x)) := List.find?_cons_of_pos T hpred
  have hfD : List.find? (fun b => b.val == OP.NOT && rIsNot b) (mkNot (mkNot x) :: D)
      = some (mkNot (mkNot x)) := List.find?_cons_of_pos D hpred
  constructor
  · unfold L4
    rw [show (A, mkNot (mkNot x) :: T, C, D).2.1 = mkNot (mkNot x) :: T from rfl, hfT]
    show (true, [(A, difference (mkNot (mkNot x) :: T) [mkNot (mkNot x)], C,
      union D [mkNot x])]) = _
    rw [diff_single, List.erase_cons_head]
  · unfold R4
    rw [show (A, T, C, mkNot (mkNot x) :: D).2.2.2 = mkNot (mkNot x) :: D from rfl, hfD]
    show (true, [(A, union T [mkNot x], C,
      difference (mkNot (mkNot x) :: D) [mkNot (mkNot x)])]) = _
    rw [diff_single, List.erase_cons_head]

/-- Claim C2 (a bug of the code): `normalization` on the NNF input `p → p`
returns the set `{"p > p"}`, whose only rule is a tautology (`p` occurs in
both `A_done` and `C_done`), while the claim says tautological and subsumed
rules are dropped before emission — the source computes `no_taut_list` and
`no_subs_list` but then iterates over the unfiltered `normlist`. -/
theorem C2_eval :
    normalization 100 pImpP = some ["p > p"]
    ∧ normalizeF 100 [] [seedRule pImpP] = some [([pAtom], [], [pAtom], [])]
    ∧ tautology ([pAtom], [], [pAtom], []) = true := by
  refine ⟨?_, ?_, ?_⟩ <;> decide

/-- Claim C3 (a bug of the code): parsing `r q p > >` and normalizing its
NNF returns only `{"r & q > p"}` — the `R7_simp` simplification (`C_done`
empty, `C_todo` a singleton) drops the branch that produces
`"r & -p > -q"`.  The claim, and the repository's own test `test_r7`, expect
the two-element set. -/
theorem C3_eval :
    build_tree "r q p > >" = Except.ok rqpTree
    ∧ normalization 100 (nnf rqpTree) = some ["r & q > p"]
    ∧ ("r & -p > -q" ∈ ["r & q > p"]) = False := by
  refine ⟨?_, ?_, ?_⟩
  · decide
  · decide
  · simp

/-- Claim C4, counterexample.  `nnf` is not idempotent: on the propositional
input `¬¬(p ∧ q)` one pass gives `¬(¬p ∨ ¬q)` and a second pass turns that
into `¬¬p ∧ ¬¬q`. -/
theorem C4_cex :
    istProp dblNegAnd = true
    ∧ nnf dblNegAnd
        = mkNot (Node.mk OP.OR (some (mkNot pAtom)) (some (mkNot qAtom)))
    ∧ nnf (nnf dblNegAnd) ≠ nnf dblNegAnd := by
  refine ⟨?_, ?_, ?_⟩ <;> decide

/-- Claim C4, amended: `nnf (nnf φ) = nnf φ` holds whenever every negation
in `nnf φ` wraps an atom or a negated atom (which fails exactly when a double
negation stands over a compound subformula, as in `¬¬(p ∧ q)`); indeed any
tree of that shape is a fixed point of `nnf`. -/
theorem C4_thm (phi : Node) (h : goodNots (nnf phi) = true) :
    nnf (nnf phi) = nnf phi :=
  nnf_fix_aux (wsize (nnf phi)) (nnf phi) le_rfl h

/-- Witness for `C4_thm` at `φ = ¬(p ∧ q)`. -/
theorem C4_witness :
    goodNots (nnf (mkNot (Node.mk OP.AND (some pAtom) (some qAtom)))) = true
    ∧ nnf (nnf (mkNot (Node.mk OP.AND (some pAtom) (some qAtom))))
        = nnf (mkNot (Node.mk OP.AND (some pAtom) (some qAtom))) :=
  ⟨by decide, C4_thm (mkNot (Node.mk OP.AND (some pAtom) (some qAtom))) (by decide)⟩

/-- Claim C5, counterexample.  In `nnf (¬¬(p ∧ q)) = ¬(¬p ∨ ¬q)` the outer
negation wraps a disjunction — neither a literal nor the negation of a
literal — so the claimed NNF shape fails on this propositional input. -/
theorem C5_cex :
    istProp dblNegAnd = true ∧ notsShallow (nnf dblNegAnd) = false := by
  constructor <;> decide

/-- Claim C5, amended: on well-formed propositional input the second half of
the claim holds — no implication node ever occurs below a negation in
`nnf φ` (every negation wraps an implication-free subformula) — but a
negation may wrap a compound, so the first half fails (see the
counterexample). -/
theorem C5_thm (phi : Node) (h : istProp phi = true) :
    noImpUnderNot (nnf phi) = true :=
  noImp_nnf phi h

/-- Witness for `C5_thm` at `φ = ¬(p → q)`. -/
theorem C5_witness :
    istProp (mkNot (Node.mk OP.IMPLIES (some pAtom) (some qAtom))) = true
    ∧ noImpUnderNot (nnf (mkNot (Node.mk OP.IMPLIES (some pAtom) (some qAtom)))) = true :=
  ⟨by decide, C5_thm (mkNot (Node.mk OP.IMPLIES (some pAtom) (some qAtom))) (by decide)⟩

/-- Claim C6: `nnf` rewrites `¬(a → b)` to `(nnf ¬¬a) ∧ (nnf ¬b)` — the
negated antecedent becomes the doubly negated form `¬¬a` (then itself
normalized), not `a`; at atomic `a`, `b` the result is literally
`¬¬a ∧ ¬b`. -/
theorem C6_thm :
    (∀ (a b : Node),
      nnf (mkNot (Node.mk OP.IMPLIES (some a) (some b)))
        = Node.mk OP.AND (some (nnf (mkNot (mkNot a)))) (some (nnf (mkNot b))))
    ∧ nnf (mkNot (Node.mk OP.IMPLIES (some pAtom) (some qAtom)))
        = Node.mk OP.AND (some (mkNot (mkNot pAtom))) (some (mkNot qAtom)) := by
  constructor
  · intro a b
    exact nnf_not_imp none (some a) (some b)
  · decide

/-- Claim C7, counterexample.  For `/E` the FIRST popped operand is the body
(right child) and the SECOND popped is the bound variable, contrary to the
claim: `p q & x /E` (stack top `x`, below it `p ∧ q`) raises
`MalformedFormulaError` although the first popped operand `x` is a literal,
while `x p q & /E` succeeds with `x` in the variable (left) slot. -/
theorem C7_cex :
    build_tree "p q & x /E" = Except.error BuildErr.malformed
    ∧ (Node.mk "x" none none).is_literal = true
    ∧ build_tree "x p q & /E"
        = Except.ok (Node.mk OP.EXISTS (some (Node.mk "x" none none))
            (some (Node.mk OP.AND (some pAtom) (some qAtom)))) := by
  refine ⟨?_, ?_, ?_⟩ <;> decide

/-- Claim C7, amended: processing `/E` or `/F` pops two operands; the FIRST
popped (`op1`, the stack top) becomes the body (right child) and the SECOND
popped (`op2`) becomes the bound-variable left child, and
`MalformedFormulaError` is raised exactly when that second-popped operand is
not a literal. -/
theorem C7_thm :
    ∀ (op1 op2 : Node) (rest : List Node),
      applyToken (op1 :: op2 :: rest) OP.EXISTS
        = (if op2.is_literal then
            Except.ok (Node.mk OP.EXISTS (some op2) (some op1) :: rest)
          else Except.error BuildErr.malformed)
      ∧ applyToken (op1 :: op2 :: rest) OP.FORALL
        = (if op2.is_literal then
            Except.ok (Node.mk OP.FORALL (some op2) (some op1) :: rest)
          else Except.error BuildErr.malformed) := by
  intro op1 op2 rest
  constructor
  · unfold applyToken
    rw [if_neg (by decide), if_neg (by decide), if_pos (by decide)]
  · unfold applyToken
    rw [if_neg (by decide), if_neg (by decide), if_pos (by decide)]

/-- Claim C8: when `C_done` is empty and `C_todo` is exactly the one pending
implication `a → b`, the right-side implication rule (`R7_simp`) returns the
single replacement rule with `a` added to `A_todo` and `b` as the new
`C_todo`, omitting branch (ii). -/
theorem C8_thm :
    ∀ (A T : List Node) (a b : Node),
      R7_simp (A, T, [], [Node.mk OP.IMPLIES (some a) (some b)])
        = (true, [(A, union T [a], [], [b])]) := by
  intro A T a b
  have hpred : ((Node.mk OP.IMPLIES (some a) (some b)).val == OP.IMPLIES) = true := by
    simp
  have hf : List.find? (fun b => b.val == OP.IMPLIES) [Node.mk OP.IMPLIES (some a) (some b)]
      = some (Node.mk OP.IMPLIES (some a) (some b)) := List.find?_cons_of_pos [] hpred
  unfold R7_simp
  rw [show (A, T, ([] : List Node), [Node.mk OP.IMPLIES (some a) (some b)]).2.2.2
      = [Node.mk OP.IMPLIES (some a) (some b)] from rfl, hf]
  show (if ([] : List Node).length = 0 ∧
      [Node.mk OP.IMPLIES (some a) (some b)].length = 1 then _ else _) = _
  rw [if_pos (by constructor <;> rfl)]
  show (true, [(A, union T [a], ([] : List Node),
    union (difference [Node.mk OP.IMPLIES (some a) (some b)]
      [Node.mk OP.IMPLIES (some a) (some b)]) [b])]) = _
  rw [diff_single, List.erase_cons_head]
  show (true, [(A, union T [a], ([] : List Node), union [] [b])]) = _
  rw [show union ([] : List Node) [b] = [b] from by simp [union]]

/-- Claim C9, counterexample.  `nnf` mutates the tree passed to it: replayed
over an explicit heap, calling `nnf` on the node at address 5 of `mutHeap`
(which holds `(¬(p ∧ q)) ∧ r`) leaves a structurally different tree at that
address — the input is not unchanged after the call. -/
theorem C9_cex :
    readTree 20 (nnfHeap 50 mutHeap 5).1 5 ≠ readTree 20 mutHeap 5 := by
  decide

/-- Claim C9, amended: `nnf` rewrites in place rather than leaving the input
intact; on the input `(¬(p ∧ q)) ∧ r` at address 5 it returns the same
address, and after the call the argument's tree equals the `nnf` result
`(¬p ∨ ¬q) ∧ r`, no longer the original formula. -/
theorem C9_thm :
    (nnfHeap 50 mutHeap 5).2 = 5
    ∧ readTree 20 (nnfHeap 50 mutHeap 5).1 5 = nnf (readTree 20 mutHeap 5)
    ∧ readTree 20 (nnfHeap 50 mutHeap 5).1 5 ≠ readTree 20 mutHeap 5 := by
  refine ⟨?_, ?_, ?_⟩ <;> decide

/-- Claim C10, counterexample.  The claimed lexicographic measure (total
todo size first) does not strictly decrease at every rule application: on
the partial rule `([], [(p → q) → r], [s], [])` — reachable from the NNF
input `((p → q) → r) → s` — L7's first branch replaces the pending
`(p → q) → r` (5 nodes) by `nnf (¬(p → q)) = ¬¬p ∧ ¬q` (6 nodes), so the
first component grows from 5 to 6 and the triple does not decrease. -/
theorem C10_cex :
    L7 f10 = (true,
      [([], [Node.mk OP.AND (some (mkNot (mkNot pAtom))) (some (mkNot qAtom))],
        [sAtom], []),
       ([], [rAtom], [sAtom], []),
       ([], [], [sAtom],
        [Node.mk OP.IMPLIES (some pAtom) (some qAtom), mkNot rAtom])])
    ∧ claimMeasure f10 = (5, 2, 1)
    ∧ claimMeasure ([], [Node.mk OP.AND (some (mkNot (mkNot pAtom))) (some (mkNot qAtom))],
        [sAtom], []) = (6, 0, 1)
    ∧ ¬ lexLt (claimMeasure ([], [Node.mk OP.AND (some (mkNot (mkNot pAtom)))
        (some (mkNot qAtom))], [sAtom], [])) (claimMeasure f10) := by
  refine ⟨?_, ?_, ?_, ?_⟩ <;> decide

/-- Claim C10, amended: `normalize` does terminate — for every input
worklist some fuel empties it, and `normalization` succeeds on every input
formula — but not by the claimed lexicographic measure; instead every rule
application strictly decreases the weighted measure `ruleWt` (in which an
implication node weighs `2·wt l + 2·wt r + 3`), see `apply_substitution_decr`. -/
theorem C10_thm :
    (∀ (st sn : List RuleT), ∃ fuel res, normalizeF fuel st sn = some res)
    ∧ (∀ (node : Node), ∃ fuel res, normalization fuel node = some res) := by
  constructor
  · exact normalizeF_terminates
  · intro node
    obtain ⟨fuel, st, h⟩ := normalizeF_terminates [] [seedRule node]
    refine ⟨fuel, ?_⟩
    simp only [normalization, h]
    exact ⟨_, rfl⟩

